import Mathlib

/-!
The program rem-sequalizer: graph-to-tree resolution and outline rendering

A shallow embedding of `main.go`.

* Values decoded from JSON (`any` in the source) are the type `JSON`; a Go
  `map[string]any` is an association list read with `List.lookup`.
* A `*blockNode` is represented by the id under which the node is stored in the
  index (`CreateAllBlocks` allocates exactly one node per key), the nil pointer
  by `none`.  The index `map[string]*blockNode` is an association list from id
  to node; its list order stands for the unspecified order of a Go `range`.
* Strings are Lean strings.  Every string of the program comes out of the JSON
  decoder and is therefore valid UTF-8, so that the byte-wise functions of
  package `strings` agree with their character-wise models.
* A function returning `error` returns `Except Err`; `parseContent`, which
  contains an unchecked type assertion, returns `Res`, which has a third
  outcome for a runtime panic.
* Writes to `bufio.Writer`s are recorded as a log of events; a write to an
  open file is taken to succeed.  `walk`, `writeRoots` and `mainRun` describe
  the run in which every `os.Create` succeeds; `walkE`, `writeRootsE` and
  `mainRunE` take the paths on which `os.Create` succeeds as a parameter and
  have the error return of the source.  Whenever they end without error the
  first three give the same result (`walkE_ok_walk`, `mainRunE_done`).
-/

namespace RemSequalizer

/-! ## Decoded JSON values -/

/-- A value as produced by `json.Unmarshal` into `any`.  Numbers are carried
along but never inspected by the program. -/
inductive JSON where
  | null
  | bool (b : Bool)
  | num (n : Int)
  | str (s : String)
  | arr (xs : List JSON)
  | obj (kvs : List (String × JSON))

/-- A decoded JSON object, `map[string]any`. -/
abbrev RawMap := List (String × JSON)

/-- The assertion `v.([]any)` on a map entry (`none` when the key is absent). -/
def asList : Option JSON → Option (List JSON)
  | some (JSON.arr xs) => some xs
  | _ => none

/-- The assertion `v.(string)`. -/
def asString : Option JSON → Option String
  | some (JSON.str s) => some s
  | _ => none

/-- The assertion `v.(bool)`. -/
def asBool : Option JSON → Option Bool
  | some (JSON.bool b) => some b
  | _ => none

/-- The assertion `v.(map[string]any)`. -/
def asMap : Option JSON → Option RawMap
  | some (JSON.obj kvs) => some kvs
  | _ => none

/-- The builtin `delete(m, k)`. -/
def mapDelete (m : RawMap) (k : String) : RawMap :=
  m.filter (fun kv => !(kv.1 == k))

/-! ## Package `strings` -/

/-- The call `strings.Contains(s, substr)` on the characters of the strings. -/
def containsChars : List Char → List Char → Bool
  | [], sub => sub.isEmpty
  | c :: cs, sub => sub.isPrefixOf (c :: cs) || containsChars cs sub

/-- The call `strings.Contains(s, substr)`. -/
def stringsContains (s substr : String) : Bool :=
  containsChars s.data substr.data

/-- Worker of `stringsReplaceAll`: `skip` counts the characters of a match that
are still to be dropped. -/
def replaceChars (old new : List Char) : Nat → List Char → List Char
  | _, [] => []
  | skip + 1, _ :: cs => replaceChars old new skip cs
  | 0, c :: cs =>
    if old.isPrefixOf (c :: cs) then new ++ replaceChars old new (old.length - 1) cs
    else c :: replaceChars old new 0 cs

/-- The call `strings.ReplaceAll(s, old, new)` for a non-empty `old`. -/
def stringsReplaceAll (s old new : String) : String :=
  String.mk (replaceChars old.data new.data 0 s.data)

/-- The call `strings.Join(elems, sep)`. -/
def stringsJoin : List String → String → String
  | [], _ => ""
  | [a], _ => a
  | a :: b :: rest, sep => a ++ sep ++ stringsJoin (b :: rest) sep

/-! ## Blocks and the index -/

/-- The struct `blockNode`.  Pointers to other nodes are ids of the index. -/
structure blockNode where
  Id : String
  ParentBlock : Option String
  SubBlocks : List (Option String)
  Content : RawMap
  StringedContent : String
  HeadKey : String
  Doc : Bool

/-- The type `map[string]*blockNode`. -/
abbrev Index := List (String × blockNode)

/-- The node a pointer points to. -/
def Index.deref (index : Index) (p : String) : Option blockNode :=
  List.lookup p index

/-- The lookup `index[id]`, as a pointer: nil when the key is absent. -/
def Index.ptr (index : Index) (id : String) : Option String :=
  match List.lookup id index with
  | some _ => some id
  | none => none

/-- The assignment `blocks[id] = node`: an existing entry is replaced. -/
def Index.insert : Index → String → blockNode → Index
  | [], id, node => [(id, node)]
  | (k, v) :: rest, id, node =>
    if k == id then (k, node) :: rest else (k, v) :: Index.insert rest id node

/-- The keys of the index. -/
def Index.keys (index : Index) : List String :=
  index.map Prod.fst

/-- The errors returned by the program, named after the place that builds
them; the id is that of the block the message names. -/
inductive Err where
  | docs
  | bulletpoint
  | idExtraction
  | subBlocks (id : String)
  | subBlockString (id : String)
  | parent (id : String)
  | headKey (id : String)
  | extracting (id : String)
  | cellParsing (key : String) (id : String)
  | noReferenceId (id : String)
  | imageNoUrl (id : String)
  | imageEmptyUrl (id : String)
  | codeBlockNoText (id : String)
  | markUpNoText (id : String)
  | linkNoContent (id : String)
  | linkNoParentWrapper (id : String)
  | linkNoChildWrapper (id : String)
  | linkNoLink (id : String)
  | markUpUnknown (id : String)
  | keyParsing (e : Err)
  | valParsing (e : Err)
  deriving DecidableEq

deriving instance DecidableEq for Except

/-- Outcome of a function that may also stop with a runtime panic. -/
inductive Res (α : Type) where
  | ok (a : α)
  | error (e : Err)
  | panic
  deriving DecidableEq

/-- The flags the core reads: `OUTDIR` and `PAGEREFERENCE`. -/
structure Config where
  OUTDIR : String
  PAGEREFERENCE : Bool

/-! ## File names and the two writers -/

/-- The list `specialChars` of `correctFileName`. -/
def specialChars : List String :=
  [" ", ":", "#", "-", "%", "$", "§", "@", "!", "()", "\x7b\x7d", "[]", "<", ">", "."]

/-- The function `correctFileName`.  The loop assigns `hasSpecialChar` anew for
every member of `specialChars`. -/
def correctFileName (name : String) : String :=
  let hasSpecialChar := specialChars.foldl (fun _ c => stringsContains name c) false
  let name := if hasSpecialChar then stringsJoin ["'", name, "'"] "" else name
  if stringsContains name "/" then stringsReplaceAll name "/" "|" else name

/-- What `strings.ReplaceAll(name, "/", "|")` does to one character. -/
def slashToBar (c : Char) : Char :=
  if c = '/' then '|' else c

/-- The loop `for i := 0; i < level; i++ { buildString.WriteRune(tab) }`. -/
def writeTabs : Nat → String → String
  | 0, buf => buf
  | n + 1, buf => writeTabs n (buf.push '\t')

/-- The function `WritePeOrRef`: the text handed to `w.Write`. -/
def WritePeOrRef (cfg : Config) (node : blockNode) (level : Nat) : String :=
  let buildString := writeTabs level ""
  let buildString := buildString ++ "- "
  if cfg.PAGEREFERENCE then
    buildString ++ stringsJoin ["[[", node.HeadKey, "]]\n"] ""
  else
    buildString ++ stringsJoin ["\x7b\x7bembed [[", node.HeadKey, "]]\x7d\x7d\n"] ""

/-- The loop over the runes of the content in `WriteContent`. -/
def writeRunes (level : Nat) : List Char → String → String
  | [], buf => buf
  | r :: rest, buf =>
    let buf := buf.push r
    writeRunes level rest (if r = '\n' then writeTabs level buf else buf)

/-- The function `WriteContent`: the text handed to `w.Write`.  The conversion
`[]rune(s)` never yields nil, so the text is written for every node. -/
def WriteContent (node : blockNode) (level : Nat) : String :=
  let buildString := writeTabs level ""
  let buildString := buildString ++ "- "
  let buildString := writeRunes level node.StringedContent.data buildString
  buildString.push '\n'

/-! ## Building the index -/

/-- The read `m[k]` of a decoded object; `none` when the key is absent. -/
def mapGet (m : RawMap) (k : String) : Option JSON :=
  List.lookup k m

/-- The variable `ignoreList`. -/
def ignoreList : List String :=
  ["Document Sidebar", "List Item", "Daily Document", "Quick Add", "Card Item",
   "Custom CSS", "Source List", "Suspend Cards", "Link", "Template Slot", "~"]

/-- The function `inFilter`. -/
def inFilter (s : String) : Bool :=
  ignoreList.any (fun c => s == c)

/-- The test that makes `CreateAllBlocks` skip a record: its `key` is a
non-empty list whose first element is a string of the ignore list. -/
def isScaffold (rem : RawMap) : Bool :=
  match asList (mapGet rem "key") with
  | some (k0 :: _) =>
    match asString (some k0) with
    | some firstKey => inFilter firstKey
    | none => false
  | _ => false

/-- The node `CreateAllBlocks` allocates for a record with the given id. -/
def newBlock (id : String) (rem : RawMap) : blockNode :=
  { Id := id
    ParentBlock := none
    SubBlocks := []
    Content := mapDelete rem "_id"
    StringedContent := ""
    HeadKey := ""
    Doc := (mapGet rem "docUpdated").isSome }

/-- The loop of `CreateAllBlocks` over `rawRems`. -/
def createLoop : List JSON → Index → Except Err Index
  | [], blocks => Except.ok blocks
  | JSON.obj rem :: rest, blocks =>
    if isScaffold rem then createLoop rest blocks
    else
      match asString (mapGet rem "_id") with
      | none => Except.error Err.idExtraction
      | some id => createLoop rest (Index.insert blocks id (newBlock id rem))
  | _ :: _, _ => Except.error Err.bulletpoint

/-- The function `CreateAllBlocks`. -/
def CreateAllBlocks (data : RawMap) : Except Err Index :=
  match asList (mapGet data "docs") with
  | none => Except.error Err.docs
  | some rawRems => createLoop rawRems []

/-- The last record of a list that `CreateAllBlocks` stores under `id`: the
last one that is not skipped and whose `_id` is `id`. -/
def lastRecord (id : String) : List JSON → Option RawMap
  | [] => none
  | JSON.obj rem :: rest =>
    match lastRecord id rest with
    | some r => some r
    | none =>
      if !isScaffold rem && asString (mapGet rem "_id") == some id then some rem else none
  | _ :: rest => lastRecord id rest

/-- The test `CreateAllBlocks` applies before it looks at the id of a record. -/
def keptRecord : JSON → Bool
  | JSON.obj rem => !isScaffold rem
  | _ => true

/-! ## Resolving the tree -/

/-- The method `resolveHeadKey`; the node after the call, or the error. -/
def resolveHeadKey (b : blockNode) : Except Err blockNode :=
  match asList (mapGet b.Content "key") with
  | none => Except.error (Err.headKey b.Id)
  | some [] => Except.ok { b with HeadKey := "" }
  | some (k0 :: _) =>
    match asString (some k0) with
    | some headKey =>
      let references := asList (mapGet b.Content "references")
      if references.isSome && !b.Doc then
        if (references.getD []).length > 0 then
          Except.ok { b with HeadKey := stringsJoin ["[[", headKey, "]]"] "" }
        else Except.ok b
      else Except.ok { b with HeadKey := headKey }
    | none => Except.ok { b with HeadKey := "" }

/-- The loop of `resolveSubBlocks`, which runs from the last raw id to the
first: the first argument is the raw list reversed, the second `b.SubBlocks`. -/
def subBlocksLoop (index : Index) (id : String) :
    List JSON → List (Option String) → Except Err (List (Option String))
  | [], subBlocks => Except.ok subBlocks
  | c :: rest, subBlocks =>
    match asString (some c) with
    | none => Except.error (Err.subBlockString id)
    | some subBlockString =>
      subBlocksLoop index id rest (subBlocks ++ [Index.ptr index subBlockString])

/-- The method `resolveSubBlocks`. -/
def resolveSubBlocks (b : blockNode) (index : Index) : Except Err blockNode :=
  match asList (mapGet b.Content "subBlocks") with
  | none => Except.error (Err.subBlocks b.Id)
  | some subBlocksForId =>
    match subBlocksLoop index b.Id subBlocksForId.reverse b.SubBlocks with
    | Except.error e => Except.error e
    | Except.ok subBlocks => Except.ok { b with SubBlocks := subBlocks }

/-- The method `resolveParent`; the flag says whether the node is top-level. -/
def resolveParent (b : blockNode) (index : Index) : Except Err (blockNode × Bool) :=
  match mapGet b.Content "parent" with
  | none => Except.ok ({ b with ParentBlock := none }, true)
  | some JSON.null => Except.ok ({ b with ParentBlock := none }, true)
  | some (JSON.str parentForId) =>
    Except.ok ({ b with ParentBlock := Index.ptr index parentForId }, false)
  | some _ => Except.error (Err.parent b.Id)

/-- The first loop of `CreateBlockTree`. -/
def headKeyLoop : Index → Except Err Index
  | [] => Except.ok []
  | (k, node) :: rest =>
    match resolveHeadKey node with
    | Except.error e => Except.error e
    | Except.ok node =>
      match headKeyLoop rest with
      | Except.error e => Except.error e
      | Except.ok rest => Except.ok ((k, node) :: rest)

/-- The second loop of `CreateBlockTree`; `index` is the whole map, whose keys
the loop does not change.  Returns `topLevelBlocks` and the nodes after it. -/
def treeLoop (index : Index) : Index → Except Err (List String × Index)
  | [] => Except.ok ([], [])
  | (k, node) :: rest =>
    match resolveSubBlocks node index with
    | Except.error e => Except.error e
    | Except.ok node =>
      match resolveParent node index with
      | Except.error e => Except.error e
      | Except.ok (node, isTopNode) =>
        match treeLoop index rest with
        | Except.error e => Except.error e
        | Except.ok (topLevelBlocks, rest) =>
          Except.ok (if isTopNode then k :: topLevelBlocks else topLevelBlocks,
            (k, node) :: rest)

/-- The function `CreateBlockTree`: the top-level blocks and the index with
its nodes resolved. -/
def CreateBlockTree (blocks : Index) : Except Err (List String × Index) :=
  match headKeyLoop blocks with
  | Except.error e => Except.error e
  | Except.ok blocks => treeLoop blocks blocks

/-! ## Resolving the content -/

/-- The method `parseReference`. -/
def parseReference (b : blockNode) (cell : RawMap) (index : Index) : Except Err String :=
  match asString (mapGet cell "_id") with
  | none => Except.error (Err.noReferenceId b.Id)
  | some id =>
    match Index.deref index id with
    | none => Except.ok " **BROKEN REFERENCE** "
    | some block =>
      if block.HeadKey = "" then Except.ok "__EMPTY REFERENCE__"
      else Except.ok block.HeadKey

/-- The method `parseImage`. -/
def parseImage (b : blockNode) (cell : RawMap) : Except Err String :=
  match asString (mapGet cell "url") with
  | none => Except.error (Err.imageNoUrl b.Id)
  | some url =>
    if url = "" then Except.error (Err.imageEmptyUrl b.Id)
    else Except.ok (stringsJoin ["![](", url, ")"] "")

/-- The method `parseCodeBlock`. -/
def parseCodeBlock (b : blockNode) (cell : RawMap) : Except Err String :=
  match asString (mapGet cell "text") with
  | none => Except.error (Err.codeBlockNoText b.Id)
  | some text =>
    let lang := (asString (mapGet cell "language")).getD ""
    Except.ok (stringsJoin ["\n``` " ++ lang, text, "```"] "\n")

/-- The weblink branch of `parseMarkUp`, entered when `qId` is a string. -/
def parseWebLink (index : Index) (qId : String) : Except Err String :=
  match Index.deref index qId with
  | none => Except.ok " **BROKEN LINK REFERENCE** "
  | some linkBlock =>
    match asMap (mapGet linkBlock.Content "crt") with
    | none => Except.error (Err.linkNoContent linkBlock.Id)
    | some content =>
      match asMap (mapGet content "b") with
      | none => Except.error (Err.linkNoParentWrapper linkBlock.Id)
      | some parentLinkWrapper =>
        match asMap (mapGet parentLinkWrapper "u") with
        | none => Except.error (Err.linkNoChildWrapper linkBlock.Id)
        | some childLinkWrapper =>
          match asString (mapGet childLinkWrapper "s") with
          | none => Except.error (Err.linkNoLink linkBlock.Id)
          | some link =>
            Except.ok (stringsJoin ["![", linkBlock.HeadKey, "](", link, ")"] "")

/-- The method `parseMarkUp`. -/
def parseMarkUp (b : blockNode) (cell : RawMap) (index : Index) : Except Err String :=
  match asString (mapGet cell "text") with
  | none => Except.error (Err.markUpNoText b.Id)
  | some text =>
    let out := ""
    let out := if asBool (mapGet cell "l") = some true then stringsJoin ["_", text, "_"] "" else out
    let out := if asBool (mapGet cell "b") = some true then stringsJoin ["__", text, "__"] "" else out
    let out := if asBool (mapGet cell "u") = some true then
      stringsJoin ["<ins>", text, "</ins>"] "" else out
    let out := if asBool (mapGet cell "q") = some true then
      stringsJoin ["\n  #+BEGIN_QUOTE\n  ", text ++ "\n", "  #+END_QUOTE"] "" else out
    let out := if asString (mapGet cell "type") = some "latex" then
      stringsJoin ["$$", text, "$$"] "" else out
    let out := if asBool (mapGet cell "workInProgressRem") = some true then
      stringsJoin [text, "#WIP"] " " else out
    match asString (mapGet cell "qId") with
    | some qId => parseWebLink index qId
    | none =>
      if out = "" then Except.error (Err.markUpUnknown b.Id) else Except.ok out

/-- The renderings of the markers a markup cell carries, in the order in which
`parseMarkUp` tests them: italic, bold, underline, quote, latex, work in
progress. -/
def presentMarkUps (cell : RawMap) (text : String) : List String :=
  (if asBool (mapGet cell "l") = some true then ["_" ++ text ++ "_"] else []) ++
  (if asBool (mapGet cell "b") = some true then ["__" ++ text ++ "__"] else []) ++
  (if asBool (mapGet cell "u") = some true then ["<ins>" ++ text ++ "</ins>"] else []) ++
  (if asBool (mapGet cell "q") = some true then
    ["\n  #+BEGIN_QUOTE\n  " ++ text ++ "\n  #+END_QUOTE"] else []) ++
  (if asString (mapGet cell "type") = some "latex" then ["$$" ++ text ++ "$$"] else []) ++
  (if asBool (mapGet cell "workInProgressRem") = some true then [text ++ " #WIP"] else [])

/-- One round of the loop in the closure `parse` of `parseContent`: the
`appendix` of a cell.  The assertion `cell["i"].(string)` has no `ok` and
panics when the field is absent or not a string. -/
def parseCell (b : blockNode) (index : Index) (key : String) : JSON → Res String
  | JSON.str cell => Res.ok cell
  | JSON.obj cell =>
    match asString (mapGet cell "i") with
    | none => Res.panic
    | some kind =>
      let r : Except Err String :=
        if kind = "q" then parseReference b cell index
        else if kind = "i" then parseImage b cell
        else if kind = "o" then parseCodeBlock b cell
        else if kind = "m" then parseMarkUp b cell index
        else Except.ok ""
      match r with
      | Except.error e => Res.error e
      | Except.ok appendix =>
        if appendix = "" then Res.error (Err.extracting b.Id) else Res.ok appendix
  | _ => Res.error (Err.cellParsing key b.Id)

/-- The loop in the closure `parse`: `totalContent` after the last cell. -/
def parseCells (b : blockNode) (index : Index) (key : String) :
    List JSON → List String → Res (List String)
  | [], totalContent => Res.ok totalContent
  | cell :: rest, totalContent =>
    match parseCell b index key cell with
    | Res.ok appendix => parseCells b index key rest (totalContent ++ [appendix])
    | Res.error e => Res.error e
    | Res.panic => Res.panic

/-- The closure `parse` of `parseContent`.  `totalContent` starts as
`make([]string, ContentLength)`, that many empty strings. -/
def parse (b : blockNode) (index : Index) (key : String) : Res String :=
  match asList (mapGet b.Content key) with
  | none => Res.ok ""
  | some [] => Res.ok ""
  | some content =>
    match parseCells b index key content (List.replicate content.length "") with
    | Res.ok totalContent => Res.ok (stringsJoin totalContent "")
    | Res.error e => Res.error e
    | Res.panic => Res.panic

/-- The method `parseContent`; the node after the call. -/
def parseContent (b : blockNode) (index : Index) : Res blockNode :=
  match parse b index "key" with
  | Res.error e => Res.error (Err.keyParsing e)
  | Res.panic => Res.panic
  | Res.ok keyContent =>
    match parse b index "value" with
    | Res.error e => Res.error (Err.valParsing e)
    | Res.panic => Res.panic
    | Res.ok valContent =>
      Res.ok { b with StringedContent := stringsJoin [keyContent, valContent] " " }

/-- The loop of `main` that calls `parseContent` on every block of the index;
`todo` lists the keys still to be visited.  The keys come from the index
itself, so the lookup finds a node for each of them. -/
def parseAll : List String → Index → Res Index
  | [], blocks => Res.ok blocks
  | id :: todo, blocks =>
    match Index.deref blocks id with
    | none => parseAll todo blocks
    | some node =>
      match parseContent node blocks with
      | Res.error e => Res.error e
      | Res.panic => Res.panic
      | Res.ok node => parseAll todo (Index.insert blocks id node)

/-! ## Walking the tree and the run as a whole -/

/-- What the walk does to its writers: a file is created (its writer is
numbered by the count of files created before it), or a text is written to a
writer, for the placeholder or for the content line of the named node. -/
inductive Event where
  | create (path : String)
  | placeholder (w : Nat) (node : String) (text : String)
  | content (w : Nat) (node : String) (text : String)
  deriving DecidableEq

/-- The text an event writes to writer `w`. -/
def Event.textFor (w : Nat) : Event → String
  | Event.create _ => ""
  | Event.placeholder v _ text => if v = w then text else ""
  | Event.content v _ text => if v = w then text else ""

/-- Everything written to writer `w`, in order. -/
def streamText (log : List Event) (w : Nat) : String :=
  String.join (log.map (Event.textFor w))

/-- The number of files created in a log, the number of the next writer. -/
def nextWriter (log : List Event) : Nat :=
  (log.filter (fun e => match e with | Event.create _ => true | _ => false)).length

/-- The state a walk threads through: the map `visited` and the event log. -/
structure WalkState where
  visited : List String
  log : List Event

/-- The loop of `walk` over `node.SubBlocks`, given the recursive call. -/
def walkChildren (step : WalkState → String → Option WalkState) :
    List (Option String) → WalkState → Option WalkState
  | [], st => some st
  | none :: rest, st => walkChildren step rest st
  | some next :: rest, st =>
    match step st next with
    | none => none
    | some st => walkChildren step rest st

/-- The function `walk` when every `os.Create` succeeds (`walkE` is the
function with its error return).  The first argument bounds the depth of the
recursion; `none` is returned when it is used up, or when a pointer is not a
key of the index. -/
def walk (cfg : Config) (index : Index) :
    Nat → WalkState → Option String → Nat → Nat → Option WalkState
  | 0, _, _, _, _ => none
  | _ + 1, st, none, _, _ => some st
  | fuel + 1, st, some p, level, w =>
    if st.visited.contains p then some st
    else
      match Index.deref index p with
      | none => none
      | some node =>
        let st := { st with visited := p :: st.visited }
        let opened := node.Doc && node.ParentBlock.isSome
        let filepath := cfg.OUTDIR ++ "/" ++ correctFileName node.HeadKey ++ ".md"
        let st1 : WalkState :=
          if opened then
            { st with log := st.log ++
                [Event.placeholder w p (WritePeOrRef cfg node level), Event.create filepath] }
          else st
        let w1 := if opened then nextWriter st.log else w
        let level1 := if opened then 0 else level
        let st2 := { st1 with log := st1.log ++ [Event.content w1 p (WriteContent node level1)] }
        walkChildren (fun s next => walk cfg index fuel s (some next) (level1 + 1) w1)
          node.SubBlocks st2

/-- The function `walkNodes` on writer `w`, continuing the log `log`. -/
def walkNodes (cfg : Config) (index : Index) (node : Option String) (w : Nat)
    (log : List Event) : Option (List Event) :=
  (walk cfg index (index.length + 1) { visited := [], log := log } node 0 w).map
    WalkState.log

/-- How a walk ends when the creation of a file can fail: with the state
after the walk, with the error of `os.Create` for a path and the state at
that moment, or, in the model only, without a result. -/
inductive WalkEnd where
  | ok (st : WalkState)
  | failed (path : String) (st : WalkState)
  | stuck

/-- The loop of `walk` over `node.SubBlocks` when a call can fail: the first
error ends the loop and is returned. -/
def walkChildrenE (step : WalkState → String → WalkEnd) :
    List (Option String) → WalkState → WalkEnd
  | [], st => WalkEnd.ok st
  | none :: rest, st => walkChildrenE step rest st
  | some next :: rest, st =>
    match step st next with
    | WalkEnd.ok st => walkChildrenE step rest st
    | WalkEnd.failed path st => WalkEnd.failed path st
    | WalkEnd.stuck => WalkEnd.stuck

/-- The function `walk` with the error return of `os.Create`: `creatable` says
for which paths the call succeeds.  The placeholder is written before the
file is created, so it is in the log when the creation fails.  Writes to an
open file are taken to succeed. -/
def walkE (cfg : Config) (creatable : String → Bool) (index : Index) :
    Nat → WalkState → Option String → Nat → Nat → WalkEnd
  | 0, _, _, _, _ => WalkEnd.stuck
  | _ + 1, st, none, _, _ => WalkEnd.ok st
  | fuel + 1, st, some p, level, w =>
    if st.visited.contains p then WalkEnd.ok st
    else
      match Index.deref index p with
      | none => WalkEnd.stuck
      | some node =>
        let st := { st with visited := p :: st.visited }
        if node.Doc && node.ParentBlock.isSome then
          let filepath := cfg.OUTDIR ++ "/" ++ correctFileName node.HeadKey ++ ".md"
          let st1 := { st with log := st.log ++
            [Event.placeholder w p (WritePeOrRef cfg node level)] }
          if creatable filepath then
            let w1 := nextWriter st.log
            let st2 := { st1 with log := st1.log ++
              [Event.create filepath, Event.content w1 p (WriteContent node 0)] }
            walkChildrenE (fun s next => walkE cfg creatable index fuel s (some next) (0 + 1) w1)
              node.SubBlocks st2
          else WalkEnd.failed filepath st1
        else
          let st2 := { st with log := st.log ++ [Event.content w p (WriteContent node level)] }
          walkChildrenE (fun s next => walkE cfg creatable index fuel s (some next) (level + 1) w)
            node.SubBlocks st2

/-- The function `walkNodes` with the error return of `walk`. -/
def walkNodesE (cfg : Config) (creatable : String → Bool) (index : Index)
    (node : Option String) (w : Nat) (log : List Event) : WalkEnd :=
  walkE cfg creatable index (index.length + 1) { visited := [], log := log } node 0 w

/-- How a run of `main` ends: with the events of a completed run, with
`log.Fatal` on an error, or with a panic.  `stuck` is the case in which the
model of `walk` gives no result. -/
inductive Outcome where
  | done (log : List Event)
  | fatal (e : Err)
  | panic
  | stuck
  deriving DecidableEq

/-- The last loop of `main`, over `topLevelBlocks`, when every `os.Create`
succeeds (`writeRootsE` has the error returns): a root with an empty head
label is skipped, any other gets a file of its own and is walked. -/
def writeRoots (cfg : Config) (index : Index) : List String → List Event → Option (List Event)
  | [], log => some log
  | node :: rest, log =>
    match Index.deref index node with
    | none => none
    | some n =>
      if n.HeadKey = "" then writeRoots cfg index rest log
      else
        let path := cfg.OUTDIR ++ "/" ++ correctFileName n.HeadKey ++ ".md"
        match walkNodes cfg index (some node) (nextWriter log) (log ++ [Event.create path]) with
        | none => none
        | some log => writeRoots cfg index rest log

/-- The function `main` from the decoded input on, when every `os.Create`
succeeds (`mainRunE` has the error returns). -/
def mainRun (cfg : Config) (data : RawMap) : Outcome :=
  match CreateAllBlocks data with
  | Except.error e => Outcome.fatal e
  | Except.ok blocks =>
    match CreateBlockTree blocks with
    | Except.error e => Outcome.fatal e
    | Except.ok (topLevelBlocks, blocks) =>
      match parseAll (Index.keys blocks) blocks with
      | Res.error e => Outcome.fatal e
      | Res.panic => Outcome.panic
      | Res.ok blocks =>
        match writeRoots cfg blocks topLevelBlocks [] with
        | none => Outcome.stuck
        | some log => Outcome.done log

/-- How a run of `main` ends when the creation of a file can fail: as
`Outcome`, with `log.Fatal` on the error of `os.Create` for a path besides. -/
inductive RunEnd where
  | done (log : List Event)
  | fatal (e : Err)
  | createFailed (path : String)
  | panic
  | stuck

/-- The last loop of `main` with the error returns of `os.Create` and of
`walkNodes`. -/
def writeRootsE (cfg : Config) (creatable : String → Bool) (index : Index) :
    List String → List Event → RunEnd
  | [], log => RunEnd.done log
  | node :: rest, log =>
    match Index.deref index node with
    | none => RunEnd.stuck
    | some n =>
      if n.HeadKey = "" then writeRootsE cfg creatable index rest log
      else
        let path := cfg.OUTDIR ++ "/" ++ correctFileName n.HeadKey ++ ".md"
        if creatable path then
          match walkNodesE cfg creatable index (some node) (nextWriter log)
              (log ++ [Event.create path]) with
          | WalkEnd.ok st => writeRootsE cfg creatable index rest st.log
          | WalkEnd.failed failedPath _ => RunEnd.createFailed failedPath
          | WalkEnd.stuck => RunEnd.stuck
        else RunEnd.createFailed path

/-- The function `main` from the decoded input on, with the error returns of
`os.Create`. -/
def mainRunE (cfg : Config) (creatable : String → Bool) (data : RawMap) : RunEnd :=
  match CreateAllBlocks data with
  | Except.error e => RunEnd.fatal e
  | Except.ok blocks =>
    match CreateBlockTree blocks with
    | Except.error e => RunEnd.fatal e
    | Except.ok (topLevelBlocks, blocks) =>
      match parseAll (Index.keys blocks) blocks with
      | Res.error e => RunEnd.fatal e
      | Res.panic => RunEnd.panic
      | Res.ok blocks => writeRootsE cfg creatable blocks topLevelBlocks []

/-! ## Notions used to state the claims -/

/-- The cell has a kind tag `parseContent` can read: it is not an object, or
its field `i` is a string. -/
def kindTagged : JSON → Bool
  | JSON.obj cell => (asString (mapGet cell "i")).isSome
  | _ => true

/-- The render text with `level` tabs put after each line break, as
`WriteContent` does while it copies the runes. -/
def indentBreaks (level : Nat) : List Char → List Char
  | [] => []
  | r :: rest =>
    if r = '\n' then r :: (List.replicate level '\t' ++ indentBreaks level rest)
    else r :: indentBreaks level rest

/-- The node for which an event writes a text. -/
def Event.node : Event → Option String
  | Event.create _ => none
  | Event.placeholder _ n _ => some n
  | Event.content _ n _ => some n

/-- The nodes whose content line a log writes, in the order of the writes. -/
def written : List Event → List String
  | [] => []
  | Event.content _ n _ :: rest => n :: written rest
  | _ :: rest => written rest

/-- The test of `walk` for a new file: the node is a document and has a parent. -/
def opensFile (node : blockNode) : Bool :=
  node.Doc && node.ParentBlock.isSome

/-- Reachability along child pointers that are not nil. -/
inductive Reach (index : Index) : String → String → Prop where
  | refl (p : String) : Reach index p p
  | step (p c n : String) (node : blockNode) :
      Index.deref index p = some node → some c ∈ node.SubBlocks → Reach index c n →
      Reach index p n

/-- Every child pointer of the index points to a node of the index, as after
`resolveSubBlocks`. -/
def ChildrenIndexed (index : Index) : Prop :=
  ∀ p node c, Index.deref index p = some node → some c ∈ node.SubBlocks →
    ∃ cn, Index.deref index c = some cn

/-- The executable form of `ChildrenIndexed`. -/
def childrenIndexedB (index : Index) : Bool :=
  index.all (fun kb => kb.2.SubBlocks.all (fun c =>
    match c with
    | none => true
    | some c => (Index.deref index c).isSome))

/-- What a walk started at `p` on writer `w` may write: texts for nodes
reachable from `p`, and content lines either on `w` or for nodes reachable
from a node that opens a file. -/
def Allowed (index : Index) (p : String) (w : Nat) : Event → Prop
  | Event.create _ => True
  | Event.placeholder _ n _ => Reach index p n
  | Event.content v n _ =>
    Reach index p n ∧
      (v = w ∨ ∃ d nd, Index.deref index d = some nd ∧ opensFile nd = true ∧
        Reach index p d ∧ Reach index d n)

/-- The relation between the state before and after a walk: the visited set
grows, the log is extended by events that satisfy `A` and that name nodes
visited meanwhile, every node visited meanwhile has its content line written
once, and all its children are visited. -/
structure Grows (index : Index) (A : Event → Prop) (st st2 : WalkState) : Prop where
  visited_mono : ∀ n, n ∈ st.visited → n ∈ st2.visited
  delta : ∃ d, st2.log = st.log ++ d ∧ (∀ e ∈ d, A e) ∧
    (∀ e ∈ d, ∀ n, Event.node e = some n → n ∉ st.visited ∧ n ∈ st2.visited) ∧
    (written d).Nodup ∧ (∀ n, n ∈ st2.visited → n ∈ st.visited ∨ n ∈ written d)
  closed : ∀ n, n ∈ st2.visited → n ∉ st.visited →
    ∀ nd c, Index.deref index n = some nd → some c ∈ nd.SubBlocks → c ∈ st2.visited

/-- The events `walk` appends for a node itself, before it turns to the
children: for a node that opens a file the placeholder on the current writer,
the new file and the content line at depth 0 on the new writer `wNew`; for any
other node the content line at the current depth on the current writer. -/
def ownEvents (cfg : Config) (node : blockNode) (p : String) (level w wNew : Nat) :
    List Event :=
  if opensFile node then
    [Event.placeholder w p (WritePeOrRef cfg node level),
     Event.create (cfg.OUTDIR ++ "/" ++ correctFileName node.HeadKey ++ ".md"),
     Event.content wNew p (WriteContent node 0)]
  else [Event.content w p (WriteContent node level)]

/-- The number of keys of the index that are not yet visited. -/
def unvisited (index : Index) (visited : List String) : Nat :=
  ((Index.keys index).filter (fun k => !visited.contains k)).length

/-- The index with the nil placeholders taken out of every children list. -/
def dropNil (index : Index) : Index :=
  index.map (fun kb => (kb.1, { kb.2 with SubBlocks := kb.2.SubBlocks.filter Option.isSome }))

/-! ## Concrete inputs used below -/

/-- A markup cell that is both italic and bold. -/
def italicBoldCell : RawMap :=
  [("i", JSON.str "m"), ("text", JSON.str "t"), ("l", JSON.bool true), ("b", JSON.bool true)]

/-- A markup cell that is both bold and a quote. -/
def boldQuoteCell : RawMap :=
  [("i", JSON.str "m"), ("text", JSON.str "t"), ("b", JSON.bool true), ("q", JSON.bool true)]

/-- A block that is not a document, as `CreateAllBlocks` builds it from the
record `{"_id": "n1", "key": ["T"], "references": []}`. -/
def emptyRefsBlock : blockNode :=
  newBlock "n1" [("_id", JSON.str "n1"), ("key", JSON.arr [JSON.str "T"]),
    ("references", JSON.arr [])]

/-- A block whose head label has been resolved to `Target`. -/
def targetBlock : blockNode :=
  { newBlock "t1" [("_id", JSON.str "t1"), ("key", JSON.arr [JSON.str "Target"])] with
    HeadKey := "Target" }

/-- A reference cell pointing to `t1`. -/
def referenceCell : RawMap :=
  [("i", JSON.str "q"), ("_id", JSON.str "t1")]

/-- A record whose parent id `zz` names no record. -/
def orphanRecord : RawMap :=
  [("_id", JSON.str "c"), ("key", JSON.arr [JSON.str "K"]), ("subBlocks", JSON.arr []),
   ("parent", JSON.str "zz")]

/-- The index `CreateAllBlocks` builds from `orphanRecord` alone. -/
def orphanIndex : Index := [("c", newBlock "c" orphanRecord)]

/-- The nodes of `orphanIndex` after `CreateBlockTree`. -/
def orphanIndexResolved : Index :=
  [("c", { newBlock "c" orphanRecord with HeadKey := "K" })]

/-- A top-level record with one child. -/
def rootRecord : RawMap :=
  [("_id", JSON.str "r"), ("key", JSON.arr [JSON.str "R"]),
   ("subBlocks", JSON.arr [JSON.str "c"]), ("parent", JSON.null)]

/-- The child of `rootRecord`. -/
def childRecord : RawMap :=
  [("_id", JSON.str "c"), ("key", JSON.arr [JSON.str "C"]), ("subBlocks", JSON.arr []),
   ("parent", JSON.str "r")]

/-- The index of `rootRecord` and `childRecord`. -/
def familyIndex : Index := [("r", newBlock "r" rootRecord), ("c", newBlock "c" childRecord)]

/-- The nodes of `familyIndex` after `CreateBlockTree`. -/
def familyIndexResolved : Index :=
  [("r", { newBlock "r" rootRecord with HeadKey := "R", SubBlocks := [some "c"] }),
   ("c", { newBlock "c" childRecord with HeadKey := "C", ParentBlock := some "r" })]

/-- The record `{_id: x, key: ["Title"], value: [], subBlocks: [], parent: null}`. -/
def titleRecord (x : String) : RawMap :=
  [("_id", JSON.str x), ("key", JSON.arr [JSON.str "Title"]), ("value", JSON.arr []),
   ("subBlocks", JSON.arr []), ("parent", JSON.null)]

/-- An input whose only record is `titleRecord x`. -/
def titleData (x : String) : RawMap :=
  [("docs", JSON.arr [JSON.obj (titleRecord x)])]

/-- The flags at their defaults: output to `pages`, embeds for documents. -/
def pagesConfig : Config := { OUTDIR := "pages", PAGEREFERENCE := false }

/-- An input with a scaffold record, a document and a plain note. -/
def sampleData : RawMap :=
  [("docs", JSON.arr
    [JSON.obj [("_id", JSON.str "s"), ("key", JSON.arr [JSON.str "Document Sidebar"])],
     JSON.obj [("_id", JSON.str "d"), ("key", JSON.arr [JSON.str "Doc"]),
       ("docUpdated", JSON.num 1)],
     JSON.obj [("_id", JSON.str "n"), ("key", JSON.arr [JSON.str "Note"])]])]

/-- The index `CreateAllBlocks` builds from `sampleData`. -/
def sampleIndex : Index :=
  [("d", { Id := "d", ParentBlock := none, SubBlocks := [],
           Content := [("key", JSON.arr [JSON.str "Doc"]), ("docUpdated", JSON.num 1)],
           StringedContent := "", HeadKey := "", Doc := true }),
   ("n", { Id := "n", ParentBlock := none, SubBlocks := [],
           Content := [("key", JSON.arr [JSON.str "Note"])],
           StringedContent := "", HeadKey := "", Doc := false })]

/-- A block with the raw child ids `a`, `b`, `zz`, in this order. -/
def threeChildrenBlock : blockNode :=
  newBlock "p" [("_id", JSON.str "p"), ("key", JSON.arr [JSON.str "P"]),
    ("subBlocks", JSON.arr [JSON.str "a", JSON.str "b", JSON.str "zz"])]

/-- An index with the keys `p`, `a` and `b`. -/
def threeChildrenIndex : Index :=
  [("p", threeChildrenBlock), ("a", newBlock "a" []), ("b", newBlock "b" [])]

/-- A markup cell without the field `i`. -/
def untaggedCell : RawMap :=
  [("text", JSON.str "a"), ("b", JSON.bool true)]

/-- A block whose key is one markup cell without the field `i`. -/
def untaggedBlock : blockNode :=
  newBlock "u1" [("_id", JSON.str "u1"), ("key", JSON.arr [JSON.obj untaggedCell])]

/-- A block whose key is a cell without the field `i` followed by a cell of
the unknown kind `zz`. -/
def untaggedThenUnknownBlock : blockNode :=
  newBlock "u2" [("_id", JSON.str "u2"),
    ("key", JSON.arr [JSON.obj untaggedCell, JSON.obj [("i", JSON.str "zz")]])]

/-- A block whose key is a plain text followed by a reference, with a value. -/
def twoCellBlock : blockNode :=
  newBlock "k1" [("_id", JSON.str "k1"),
    ("key", JSON.arr [JSON.str "see ", JSON.obj referenceCell]),
    ("value", JSON.arr [JSON.str "v"])]

/-- A record that is not a document and has one inbound reference. -/
def referencedRecord : RawMap :=
  [("_id", JSON.str "n"), ("key", JSON.arr [JSON.str "Note"]), ("subBlocks", JSON.arr []),
   ("parent", JSON.null), ("references", JSON.arr [JSON.str "q1"])]

/-- The index of `referencedRecord`. -/
def referencedIndex : Index := [("n", newBlock "n" referencedRecord)]

/-- The nodes of `referencedIndex` after `CreateBlockTree`. -/
def referencedIndexResolved : Index :=
  [("n", { newBlock "n" referencedRecord with HeadKey := "[[Note]]" })]

/-- A block whose render text has two lines. -/
def twoLineBlock : blockNode :=
  { newBlock "w" [] with StringedContent := "a\nb" }

/-- A block with the given pointers and texts, as it stands after
`CreateBlockTree` and `parseContent`. -/
def resolvedBlock (id : String) (parent : Option String) (subBlocks : List (Option String))
    (doc : Bool) (head : String) : blockNode :=
  { Id := id, ParentBlock := parent, SubBlocks := subBlocks, Content := [],
    StringedContent := head ++ " ", HeadKey := head, Doc := doc }

/-- A graph with a shared child, a nil placeholder and cycles: `r` has the
children `a`, nil, `b`; `a` has `b` and `r`; `b` has `a`. -/
def cyclicIndex : Index :=
  [("r", resolvedBlock "r" none [some "a", none, some "b"] false "R"),
   ("a", resolvedBlock "a" (some "r") [some "b", some "r"] false "A"),
   ("b", resolvedBlock "b" (some "r") [some "a"] false "B")]

theorem string_append_eq_empty (a b : String) : a ++ b = "" ↔ a = "" ∧ b = "" := by
  constructor
  · intro e
    have := congrArg String.data e
    simp at this
    exact ⟨String.ext (by simp [this.1]), String.ext (by simp [this.2])⟩
  · rintro ⟨rfl, rfl⟩; rfl

theorem hasSpecialChar_eq (name : String) :
    specialChars.foldl (fun _ c => stringsContains name c) false = stringsContains name "." := by
  rfl

theorem replaceChars_slash (l : List Char) :
    replaceChars ['/'] ['|'] 0 l = l.map slashToBar := by
  induction l with
  | nil => rfl
  | cons c cs ih =>
    by_cases h : c = '/'
    · subst h
      simp [replaceChars, slashToBar, ih, List.isPrefixOf]
    · have h2 : ¬ ('/' = c) := fun e => h e.symm
      simp [replaceChars, slashToBar, ih, List.isPrefixOf, h, h2]

theorem containsChars_slash (l : List Char) :
    containsChars l ['/'] = true ↔ '/' ∈ l := by
  induction l with
  | nil => simp [containsChars]
  | cons c cs ih => simp [containsChars, List.isPrefixOf, ih]

theorem map_slashToBar_of_not_mem (l : List Char) (h : '/' ∉ l) : l.map slashToBar = l := by
  induction l with
  | nil => rfl
  | cons c cs ih =>
    simp only [List.mem_cons, not_or] at h
    have hc : ¬ c = '/' := fun e => h.1 e.symm
    simp [slashToBar, hc, ih h.2]

theorem slash_not_mem_map (l : List Char) : '/' ∉ l.map slashToBar := by
  intro h
  rcases List.mem_map.1 h with ⟨c, _, hc⟩
  unfold slashToBar at hc
  split at hc
  · exact absurd hc (by decide)
  · rename_i h2; exact h2 hc

theorem replaceSlash_eq (n : String) :
    (if stringsContains n "/" then stringsReplaceAll n "/" "|" else n) =
      String.mk (n.data.map slashToBar) := by
  unfold stringsContains stringsReplaceAll
  split
  · show String.mk (replaceChars ['/'] ['|'] 0 n.data) = _
    rw [replaceChars_slash]
  · rename_i h
    have : '/' ∉ n.data := fun hm => h ((containsChars_slash _).2 hm)
    rw [map_slashToBar_of_not_mem _ this]

theorem correctFileName_eq (name : String) :
    correctFileName name =
      String.mk ((if stringsContains name "." then "'" ++ (name ++ "'")
        else name).data.map slashToBar) := by
  unfold correctFileName
  rw [hasSpecialChar_eq]
  simp only [stringsJoin, String.append_empty]
  rw [replaceSlash_eq]

theorem writeTabs_eq (n : Nat) (buf : String) :
    writeTabs n buf = buf ++ String.mk (List.replicate n '\t') := by
  induction n generalizing buf with
  | zero => apply String.ext; simp [writeTabs]
  | succ n ih =>
    apply String.ext
    simp [writeTabs, ih, List.replicate_succ]

/-! ## Facts about the index -/

theorem lookup_isSome_iff {β : Type} (k : String) (l : List (String × β)) :
    (List.lookup k l).isSome = true ↔ k ∈ l.map Prod.fst := by
  induction l with
  | nil => simp
  | cons kv rest ih =>
    obtain ⟨k1, v⟩ := kv
    by_cases h : k = k1
    · subst h; simp [List.lookup]
    · have h2 : (k == k1) = false := by simpa using h
      simp [List.lookup, h2, ih, h]

theorem lookup_of_mem_nodup {β : Type} (l : List (String × β)) (k : String) (v : β)
    (hnd : (l.map Prod.fst).Nodup) (hm : (k, v) ∈ l) : List.lookup k l = some v := by
  induction l with
  | nil => cases hm
  | cons kv rest ih =>
    obtain ⟨k1, v1⟩ := kv
    simp only [List.map_cons, List.nodup_cons] at hnd
    rcases List.mem_cons.1 hm with e | hm
    · cases e; simp [List.lookup]
    · have hk : k ∈ rest.map Prod.fst := List.mem_map.2 ⟨(k, v), hm, rfl⟩
      have hne : (k == k1) = false := by
        have : k ≠ k1 := fun e => hnd.1 (e ▸ hk)
        simpa using this
      simp [List.lookup, hne, ih hnd.2 hm]

theorem mem_of_lookup {β : Type} (l : List (String × β)) (k : String) (v : β)
    (h : List.lookup k l = some v) : (k, v) ∈ l := by
  induction l with
  | nil => simp at h
  | cons kv rest ih =>
    obtain ⟨k1, v1⟩ := kv
    by_cases hk : k = k1
    · subst hk
      simp [List.lookup] at h
      subst h
      exact List.mem_cons_self _ _
    · have : (k == k1) = false := by simpa using hk
      simp only [List.lookup, this] at h
      exact List.mem_cons_of_mem _ (ih h)

theorem ptr_eq (index : Index) (id : String) :
    Index.ptr index id = if id ∈ Index.keys index then some id else none := by
  unfold Index.ptr Index.keys
  have := lookup_isSome_iff id index
  cases h : List.lookup id index with
  | none => rw [h] at this; simp at this; simp [this]
  | some v => rw [h] at this; simp at this; simp [this]

theorem deref_insert (index : Index) (k id : String) (n : blockNode) :
    Index.deref (Index.insert index k n) id =
      if id = k then some n else Index.deref index id := by
  induction index with
  | nil =>
    by_cases h : id = k
    · subst h; simp [Index.insert, Index.deref, List.lookup]
    · have : (id == k) = false := by simpa using h
      simp [Index.insert, Index.deref, List.lookup, this, h]
  | cons kv rest ih =>
    obtain ⟨k1, v⟩ := kv
    unfold Index.deref at ih ⊢
    by_cases hk : k1 = k
    · subst hk
      by_cases h : id = k1
      · subst h; simp [Index.insert, List.lookup]
      · have : (id == k1) = false := by simpa using h
        simp [Index.insert, List.lookup, this, h]
    · have hk2 : (k1 == k) = false := by simpa using hk
      by_cases h : id = k1
      · subst h
        simp [Index.insert, List.lookup, hk2, hk]
      · have : (id == k1) = false := by simpa using h
        simp [Index.insert, List.lookup, hk2, this, ih]

theorem keys_insert (index : Index) (k : String) (n : blockNode) :
    Index.keys (Index.insert index k n) =
      if k ∈ Index.keys index then Index.keys index else Index.keys index ++ [k] := by
  induction index with
  | nil => simp [Index.insert, Index.keys]
  | cons kv rest ih =>
    obtain ⟨k1, v⟩ := kv
    unfold Index.keys at ih ⊢
    by_cases hk : k1 = k
    · subst hk; simp [Index.insert]
    · have hk2 : (k1 == k) = false := by simpa using hk
      have hk3 : ¬ k = k1 := fun e => hk e.symm
      simp only [Index.insert, hk2, Bool.false_eq_true, if_false, List.map_cons, List.mem_cons,
        hk3, false_or]
      rw [ih]
      split <;> simp

theorem keys_insert_nodup (index : Index) (k : String) (n : blockNode)
    (h : (Index.keys index).Nodup) : (Index.keys (Index.insert index k n)).Nodup := by
  rw [keys_insert]
  split
  · exact h
  · rename_i hk
    exact List.Nodup.append h (List.nodup_singleton k) (by simpa using hk)

/-! ## Facts about the loops -/

theorem createLoop_ok (rs : List JSON) (acc index : Index)
    (h : createLoop rs acc = Except.ok index) :
    ((Index.keys acc).Nodup → (Index.keys index).Nodup) ∧
    (∀ id, Index.deref index id =
      match lastRecord id rs with
      | some rem => some (newBlock id rem)
      | none => Index.deref acc id) ∧
    (∀ r, r ∈ rs → ∃ rem, r = JSON.obj rem) := by
  induction rs generalizing acc with
  | nil =>
    simp [createLoop] at h
    subst h
    simp [lastRecord]
  | cons r rest ih =>
    cases r with
    | obj rem =>
      unfold createLoop at h
      by_cases hsc : isScaffold rem = true
      · simp only [hsc, if_true] at h
        obtain ⟨i1, i2, i3⟩ := ih acc h
        refine ⟨i1, ?_, ?_⟩
        · intro id
          rw [i2 id]
          simp only [lastRecord, hsc]
          cases lastRecord id rest <;> simp
        · intro r hr
          rcases List.mem_cons.1 hr with e | hr
          · exact ⟨rem, e⟩
          · exact i3 r hr
      · simp only [hsc] at h
        cases hid : asString (mapGet rem "_id") with
        | none => simp [hid] at h
        | some id0 =>
          simp only [hid] at h
          obtain ⟨i1, i2, i3⟩ := ih _ h
          refine ⟨fun hnd => i1 (keys_insert_nodup _ _ _ hnd), ?_, ?_⟩
          · intro id
            rw [i2 id, deref_insert]
            simp only [lastRecord, hsc, hid]
            cases lastRecord id rest with
            | some r => simp
            | none =>
              by_cases e : id = id0
              · subst e; simp
              · have e2 : ¬ id0 = id := fun h => e h.symm
                simp [e, e2]
          · intro r hr
            rcases List.mem_cons.1 hr with e | hr
            · exact ⟨rem, e⟩
            · exact i3 r hr
    | null => simp [createLoop] at h
    | bool b => simp [createLoop] at h
    | num n => simp [createLoop] at h
    | str s => simp [createLoop] at h
    | arr xs => simp [createLoop] at h

theorem lastRecord_some (id : String) (rs : List JSON) (rem : RawMap)
    (h : lastRecord id rs = some rem) :
    JSON.obj rem ∈ rs ∧ isScaffold rem = false ∧ asString (mapGet rem "_id") = some id := by
  induction rs with
  | nil => simp [lastRecord] at h
  | cons r rest ih =>
    cases r with
    | obj rem1 =>
      unfold lastRecord at h
      cases hl : lastRecord id rest with
      | some r2 =>
        simp only [hl] at h
        cases h
        obtain ⟨a, b, c⟩ := ih hl
        exact ⟨List.mem_cons_of_mem _ a, b, c⟩
      | none =>
        simp only [hl] at h
        split at h
        · rename_i hc
          cases h
          simp only [Bool.and_eq_true, Bool.not_eq_true', beq_iff_eq] at hc
          exact ⟨List.mem_cons_self _ _, hc.1, hc.2⟩
        · cases h
    | null => simp only [lastRecord] at h; obtain ⟨a, b⟩ := ih h; exact ⟨List.mem_cons_of_mem _ a, b⟩
    | bool _ => simp only [lastRecord] at h; obtain ⟨a, b⟩ := ih h; exact ⟨List.mem_cons_of_mem _ a, b⟩
    | num _ => simp only [lastRecord] at h; obtain ⟨a, b⟩ := ih h; exact ⟨List.mem_cons_of_mem _ a, b⟩
    | str _ => simp only [lastRecord] at h; obtain ⟨a, b⟩ := ih h; exact ⟨List.mem_cons_of_mem _ a, b⟩
    | arr _ => simp only [lastRecord] at h; obtain ⟨a, b⟩ := ih h; exact ⟨List.mem_cons_of_mem _ a, b⟩

theorem lastRecord_isSome (id : String) (rs : List JSON) (rem : RawMap)
    (hm : JSON.obj rem ∈ rs) (hs : isScaffold rem = false)
    (hid : asString (mapGet rem "_id") = some id) :
    ∃ r, lastRecord id rs = some r := by
  induction rs with
  | nil => cases hm
  | cons r rest ih =>
    rcases List.mem_cons.1 hm with e | hm
    · subst e
      unfold lastRecord
      cases hl : lastRecord id rest with
      | some r2 => exact ⟨r2, rfl⟩
      | none => exact ⟨rem, by simp [hs, hid]⟩
    · obtain ⟨r2, h2⟩ := ih hm
      cases r with
      | obj rem1 => exact ⟨r2, by simp [lastRecord, h2]⟩
      | null => exact ⟨r2, by simp [lastRecord, h2]⟩
      | bool _ => exact ⟨r2, by simp [lastRecord, h2]⟩
      | num _ => exact ⟨r2, by simp [lastRecord, h2]⟩
      | str _ => exact ⟨r2, by simp [lastRecord, h2]⟩
      | arr _ => exact ⟨r2, by simp [lastRecord, h2]⟩

theorem createLoop_filter (rs : List JSON) (acc : Index) :
    createLoop (rs.filter keptRecord) acc = createLoop rs acc := by
  induction rs generalizing acc with
  | nil => rfl
  | cons r rest ih =>
    cases r with
    | obj rem =>
      by_cases hsc : isScaffold rem = true
      · simp [List.filter, keptRecord, hsc, createLoop, ih]
      · have hsc2 : isScaffold rem = false := by simpa using hsc
        simp only [List.filter, keptRecord, hsc2, Bool.not_false]
        cases hid : asString (mapGet rem "_id") with
        | none => simp [createLoop, hsc2, hid]
        | some id0 => simp [createLoop, hsc2, hid, ih]
    | null => simp [List.filter, keptRecord, createLoop]
    | bool _ => simp [List.filter, keptRecord, createLoop]
    | num _ => simp [List.filter, keptRecord, createLoop]
    | str _ => simp [List.filter, keptRecord, createLoop]
    | arr _ => simp [List.filter, keptRecord, createLoop]

theorem subBlocksLoop_strings (index : Index) (id : String) (ids : List String)
    (acc : List (Option String)) :
    subBlocksLoop index id (ids.map JSON.str) acc =
      Except.ok (acc ++ ids.map (Index.ptr index)) := by
  induction ids generalizing acc with
  | nil => simp [subBlocksLoop]
  | cons s rest ih => simp [subBlocksLoop, asString, ih]

theorem resolveHeadKey_content (b b1 : blockNode) (h : resolveHeadKey b = Except.ok b1) :
    b1.Content = b.Content ∧ b1.Id = b.Id ∧ b1.Doc = b.Doc ∧
      b1.SubBlocks = b.SubBlocks ∧ b1.ParentBlock = b.ParentBlock := by
  unfold resolveHeadKey at h
  split at h
  · cases h
  · cases h; simp
  · split at h
    · simp only at h
      split at h
      · split at h <;> cases h <;> simp
      · cases h; simp
    · cases h; simp

theorem resolveSubBlocks_content (b b1 : blockNode) (index : Index)
    (h : resolveSubBlocks b index = Except.ok b1) :
    b1.Content = b.Content ∧ b1.Id = b.Id ∧ b1.Doc = b.Doc ∧
      b1.HeadKey = b.HeadKey ∧ b1.ParentBlock = b.ParentBlock := by
  unfold resolveSubBlocks at h
  split at h
  · cases h
  · split at h
    · cases h
    · cases h; simp

theorem resolveParent_ok (b b1 : blockNode) (index : Index) (top : Bool)
    (h : resolveParent b index = Except.ok (b1, top)) :
    (top = true ↔
      (mapGet b.Content "parent" = none ∨ mapGet b.Content "parent" = some JSON.null)) ∧
    (top = true → b1.ParentBlock = none) ∧
    (∀ pid, mapGet b.Content "parent" = some (JSON.str pid) →
      b1.ParentBlock = Index.ptr index pid) ∧
    b1.Content = b.Content ∧ b1.Id = b.Id ∧ b1.Doc = b.Doc ∧
      b1.HeadKey = b.HeadKey ∧ b1.SubBlocks = b.SubBlocks := by
  unfold resolveParent at h
  split at h
  · rename_i hp
    cases h; simp [hp]
  · rename_i hp
    cases h; simp [hp]
  · rename_i pid hp
    cases h; simp [hp]
  · cases h

theorem resolveParent_error (b : blockNode) (index : Index)
    (h1 : mapGet b.Content "parent" ≠ none)
    (h2 : mapGet b.Content "parent" ≠ some JSON.null)
    (h3 : ∀ pid, mapGet b.Content "parent" ≠ some (JSON.str pid)) :
    resolveParent b index = Except.error (Err.parent b.Id) := by
  unfold resolveParent
  split
  · rename_i hp; exact absurd hp h1
  · rename_i hp; exact absurd hp h2
  · rename_i pid hp; exact absurd hp (h3 pid)
  · rfl

theorem headKeyLoop_ok (bs bs1 : Index) (h : headKeyLoop bs = Except.ok bs1) :
    Index.keys bs1 = Index.keys bs ∧
    (∀ id b, (id, b) ∈ bs → ∃ b1, (id, b1) ∈ bs1 ∧ resolveHeadKey b = Except.ok b1) ∧
    (∀ id b1, (id, b1) ∈ bs1 → ∃ b, (id, b) ∈ bs ∧ resolveHeadKey b = Except.ok b1) := by
  induction bs generalizing bs1 with
  | nil =>
    simp [headKeyLoop] at h
    subst h
    simp [Index.keys]
  | cons kb rest ih =>
    obtain ⟨k, node⟩ := kb
    unfold headKeyLoop at h
    cases h1 : resolveHeadKey node with
    | error e => simp [h1] at h
    | ok node1 =>
      cases h2 : headKeyLoop rest with
      | error e => simp [h1, h2] at h
      | ok rest1 =>
        simp [h1, h2] at h
        subst h
        obtain ⟨ihk, ih1, ih2⟩ := ih rest1 h2
        refine ⟨?_, ?_, ?_⟩
        · simp only [Index.keys, List.map_cons] at ihk ⊢
          rw [ihk]
        · intro id b hm
          rcases List.mem_cons.1 hm with e | hm
          · cases e
            exact ⟨node1, List.mem_cons_self _ _, h1⟩
          · obtain ⟨b1, hb1, hr⟩ := ih1 id b hm
            exact ⟨b1, List.mem_cons_of_mem _ hb1, hr⟩
        · intro id b1 hm
          rcases List.mem_cons.1 hm with e | hm
          · cases e
            exact ⟨node, List.mem_cons_self _ _, h1⟩
          · obtain ⟨b, hb, hr⟩ := ih2 id b1 hm
            exact ⟨b, List.mem_cons_of_mem _ hb, hr⟩

theorem treeLoop_ok (index bs out : Index) (roots : List String)
    (h : treeLoop index bs = Except.ok (roots, out)) :
    Index.keys out = Index.keys bs ∧
    roots.Sublist (Index.keys bs) ∧
    (∀ id b, (id, b) ∈ bs → ∃ n1 b2 top, (id, b2) ∈ out ∧
      resolveSubBlocks b index = Except.ok n1 ∧
      resolveParent n1 index = Except.ok (b2, top) ∧ (top = true → id ∈ roots)) ∧
    (∀ id, id ∈ roots → ∃ b n1 b2, (id, b) ∈ bs ∧
      resolveSubBlocks b index = Except.ok n1 ∧
      resolveParent n1 index = Except.ok (b2, true)) := by
  induction bs generalizing out roots with
  | nil =>
    simp [treeLoop] at h
    obtain ⟨rfl, rfl⟩ := h
    simp [Index.keys]
  | cons kb rest ih =>
    obtain ⟨k, node⟩ := kb
    unfold treeLoop at h
    cases h1 : resolveSubBlocks node index with
    | error e => simp [h1] at h
    | ok n1 =>
      cases h2 : resolveParent n1 index with
      | error e => simp [h1, h2] at h
      | ok r =>
        obtain ⟨b2, top⟩ := r
        cases h3 : treeLoop index rest with
        | error e => simp [h1, h2, h3] at h
        | ok r3 =>
          obtain ⟨tops, rest1⟩ := r3
          simp [h1, h2, h3] at h
          obtain ⟨hr, ho⟩ := h
          subst ho
          obtain ⟨ihk, ihs, ih1, ih2⟩ := ih rest1 tops h3
          have hsub : tops.Sublist roots := by
            rw [← hr]; split
            · exact List.sublist_cons_self _ _
            · exact List.Sublist.refl _
          refine ⟨?_, ?_, ?_, ?_⟩
          · simp only [Index.keys, List.map_cons] at ihk ⊢
            rw [ihk]
          · rw [← hr]
            simp only [Index.keys, List.map_cons] at ihs ⊢
            split
            · exact List.Sublist.cons₂ _ ihs
            · exact List.Sublist.cons _ ihs
          · intro id b hm
            rcases List.mem_cons.1 hm with e | hm
            · cases e
              refine ⟨n1, b2, top, List.mem_cons_self _ _, h1, h2, ?_⟩
              intro ht
              rw [← hr]; simp [ht]
            · obtain ⟨m1, c2, t, hc, hs1, hs2, ht⟩ := ih1 id b hm
              exact ⟨m1, c2, t, List.mem_cons_of_mem _ hc, hs1, hs2,
                fun e => hsub.subset (ht e)⟩
          · intro id hid
            rw [← hr] at hid
            by_cases ht : top = true
            · subst ht
              simp only [if_true] at hid
              rcases List.mem_cons.1 hid with e | hid
              · subst e
                exact ⟨node, n1, b2, List.mem_cons_self _ _, h1, h2⟩
              · obtain ⟨b, m1, c2, hb, hs1, hs2⟩ := ih2 id hid
                exact ⟨b, m1, c2, List.mem_cons_of_mem _ hb, hs1, hs2⟩
            · simp only [ht, if_false] at hid
              obtain ⟨b, m1, c2, hb, hs1, hs2⟩ := ih2 id hid
              exact ⟨b, m1, c2, List.mem_cons_of_mem _ hb, hs1, hs2⟩

theorem treeLoop_error (index bs : Index) (id : String) (b : blockNode)
    (hm : (id, b) ∈ bs)
    (h1 : mapGet b.Content "parent" ≠ none)
    (h2 : mapGet b.Content "parent" ≠ some JSON.null)
    (h3 : ∀ pid, mapGet b.Content "parent" ≠ some (JSON.str pid)) :
    ∃ e, treeLoop index bs = Except.error e := by
  induction bs with
  | nil => cases hm
  | cons kb rest ih =>
    obtain ⟨k, node⟩ := kb
    cases hs : resolveSubBlocks node index with
    | error e => exact ⟨e, by simp [treeLoop, hs]⟩
    | ok n1 =>
      cases hp : resolveParent n1 index with
      | error e => exact ⟨e, by simp [treeLoop, hs, hp]⟩
      | ok r =>
        obtain ⟨b2, top⟩ := r
        rcases List.mem_cons.1 hm with e | hm
        · cases e
          have hc := (resolveSubBlocks_content _ _ _ hs).1
          rw [resolveParent_error n1 index (hc ▸ h1) (hc ▸ h2) (fun pid => hc ▸ h3 pid)] at hp
          cases hp
        · obtain ⟨e, he⟩ := ih hm
          exact ⟨e, by simp [treeLoop, hs, hp, he]⟩

/-! ## One record, one line -/

/-- C1, as stated, fails: for the id `x` the run writes `- Title `, with the
space that joins key and value, before the line break. -/
theorem mainRun_title_counterexample :
    mainRun pagesConfig (titleData "x") =
      Outcome.done [Event.create "pages/Title.md", Event.content 0 "x" "- Title \n"] ∧
    streamText [Event.create "pages/Title.md", Event.content 0 "x" "- Title \n"] 0 ≠
      "- Title\n" := by
  decide

/-- C1, amended: for the single record with key `["Title"]`, empty value, no
children and null parent, the four stages succeed and the walk of the one root
writes to the stream of the root exactly `- Title `, a space included, and one
line break; `main` as a whole produces the same log. -/
theorem title_record_output (x : String) (cfg : Config) :
    ∃ blocks resolved parsed log,
      CreateAllBlocks (titleData x) = Except.ok blocks ∧
      CreateBlockTree blocks = Except.ok ([x], resolved) ∧
      parseAll (Index.keys resolved) resolved = Res.ok parsed ∧
      walkNodes cfg parsed (some x) 0 [Event.create (cfg.OUTDIR ++ "/Title.md")] = some log ∧
      log = [Event.create (cfg.OUTDIR ++ "/Title.md"), Event.content 0 x "- Title \n"] ∧
      streamText log 0 = "- Title \n" ∧
      mainRun cfg (titleData x) = Outcome.done log := by
  have hb : CreateAllBlocks (titleData x) = Except.ok [(x, newBlock x (titleRecord x))] := rfl
  have hr : CreateBlockTree [(x, newBlock x (titleRecord x))] =
      Except.ok ([x], [(x, { newBlock x (titleRecord x) with HeadKey := "Title" })]) := rfl
  have hp : parseAll [x] [(x, { newBlock x (titleRecord x) with HeadKey := "Title" })] =
      Res.ok [(x, { newBlock x (titleRecord x) with
        HeadKey := "Title", StringedContent := "Title " })] := by
    simp [parseAll, Index.deref, List.lookup, Index.insert]
    rfl
  have hw : walkNodes cfg [(x, { newBlock x (titleRecord x) with
        HeadKey := "Title", StringedContent := "Title " })] (some x) 0
        [Event.create (cfg.OUTDIR ++ "/Title.md")] =
      some [Event.create (cfg.OUTDIR ++ "/Title.md"), Event.content 0 x "- Title \n"] := by
    simp [walkNodes, walk, Index.deref, List.lookup, walkChildren, newBlock]
    rfl
  refine ⟨_, _, _, _, hb, hr, hp, hw, rfl, ?_, ?_⟩
  · simp [streamText, Event.textFor, String.join]
  · unfold mainRun
    rw [hb]
    simp only [hr]
    show (match parseAll [x] _ with
      | Res.error e => Outcome.fatal e
      | Res.panic => Outcome.panic
      | Res.ok blocks =>
        match writeRoots cfg blocks [x] [] with
        | none => Outcome.stuck
        | some log => Outcome.done log) = _
    rw [hp]
    simp only [writeRoots, Index.deref, List.lookup, beq_self_eq_true]
    have hc : correctFileName "Title" = "Title" := by decide
    have hne : ¬ ("Title" = "") := by decide
    simp only [hne, if_false, hc]
    have hpath : cfg.OUTDIR ++ "/" ++ "Title" ++ ".md" = cfg.OUTDIR ++ "/Title.md" := by
      apply String.ext; simp
    have hw2 : walkNodes cfg [(x, { newBlock x (titleRecord x) with
          HeadKey := "Title", StringedContent := "Title " })] (some x) (nextWriter [])
          ([] ++ [Event.create (cfg.OUTDIR ++ "/" ++ "Title" ++ ".md")]) =
        some [Event.create (cfg.OUTDIR ++ "/Title.md"), Event.content 0 x "- Title \n"] := by
      rw [hpath]; exact hw
    rw [hw2]

/-! ## File names -/

/-- C2, at the failing input: the name `a b` contains the special character
" ", yet `correctFileName` returns it without quotes. -/
theorem correctFileName_space_unquoted :
    " " ∈ specialChars ∧ stringsContains "a b" " " = true ∧
      correctFileName "a b" = "a b" := by
  decide

/-- C3: the result of `correctFileName` has no slash; it is the name with every
slash turned into a bar and every other character kept, in order, with or
without a pair of quotes around it; and the line `WritePeOrRef` writes carries
the head label itself. -/
theorem correctFileName_no_slash_placeholder_keeps_head
    (name : String) (cfg : Config) (node : blockNode) (level : Nat) :
    '/' ∉ (correctFileName name).data ∧
    (∃ q : String, (q = "" ∨ q = "'") ∧
      correctFileName name = q ++ String.mk (name.data.map slashToBar) ++ q) ∧
    (∀ c : Char, slashToBar c = (if c = '/' then '|' else c)) ∧
    WritePeOrRef cfg node level =
      String.mk (List.replicate level '\t') ++ "- " ++
        (if cfg.PAGEREFERENCE then "[[" ++ node.HeadKey ++ "]]\n"
         else "\x7b\x7bembed [[" ++ node.HeadKey ++ "]]\x7d\x7d\n") := by
  refine ⟨?_, ?_, fun _ => rfl, ?_⟩
  · rw [correctFileName_eq]
    exact slash_not_mem_map _
  · rw [correctFileName_eq]
    by_cases h : stringsContains name "." = true
    · refine ⟨"'", Or.inr rfl, ?_⟩
      apply String.ext
      simp [h, slashToBar]
    · refine ⟨"", Or.inl rfl, ?_⟩
      apply String.ext
      simp [h]
  · unfold WritePeOrRef
    simp only [writeTabs_eq, stringsJoin, String.append_empty]
    cases cfg.PAGEREFERENCE <;> simp [String.append_assoc]

/-! ## Inline markup -/

/-- C4, as stated, fails: a cell that is italic and bold is rendered bold, and a
cell that is bold and a quote is rendered as a quote. -/
theorem parseMarkUp_first_marker_counterexample :
    parseMarkUp emptyRefsBlock italicBoldCell [] = Except.ok "__t__" ∧
    parseMarkUp emptyRefsBlock italicBoldCell [] ≠ Except.ok "_t_" ∧
    parseMarkUp emptyRefsBlock boldQuoteCell [] =
      Except.ok "\n  #+BEGIN_QUOTE\n  t\n  #+END_QUOTE" ∧
    parseMarkUp emptyRefsBlock boldQuoteCell [] ≠ Except.ok "__t__" := by
  decide

/-- C4, amended: a markup cell with a text and no weblink id is rendered
according to the last marker it carries in the order italic, bold, underline,
quote, latex, work in progress; without any marker the call fails. -/
theorem parseMarkUp_last_marker_wins
    (b : blockNode) (cell : RawMap) (index : Index) (text : String)
    (ht : asString (mapGet cell "text") = some text)
    (hq : asString (mapGet cell "qId") = none) :
    parseMarkUp b cell index =
      match (presentMarkUps cell text).getLast? with
      | some r => Except.ok r
      | none => Except.error (Err.markUpUnknown b.Id) := by
  unfold parseMarkUp presentMarkUps
  rw [ht, hq]
  simp only [stringsJoin, String.append_empty]
  by_cases h1 : asBool (mapGet cell "l") = some true <;>
  by_cases h2 : asBool (mapGet cell "b") = some true <;>
  by_cases h3 : asBool (mapGet cell "u") = some true <;>
  by_cases h4 : asBool (mapGet cell "q") = some true <;>
  by_cases h5 : asString (mapGet cell "type") = some "latex" <;>
  by_cases h6 : asBool (mapGet cell "workInProgressRem") = some true <;>
  simp [h1, h2, h3, h4, h5, h6, string_append_eq_empty, String.append_assoc]

/-- Witness of C4 amended, at the italic and bold cell. -/
theorem parseMarkUp_last_marker_wins_witness :
    presentMarkUps italicBoldCell "t" = ["_t_", "__t__"] ∧
    parseMarkUp emptyRefsBlock italicBoldCell [] =
      match (presentMarkUps italicBoldCell "t").getLast? with
      | some r => Except.ok r
      | none => Except.error (Err.markUpUnknown emptyRefsBlock.Id) :=
  ⟨by decide, parseMarkUp_last_marker_wins emptyRefsBlock italicBoldCell [] "t" rfl rfl⟩

/-! ## Head labels -/

/-- C5, at the failing input: a block that is not a document, with key
`["T"]` and an empty `references` list, keeps its empty head label. -/
theorem resolveHeadKey_empty_references_keeps_head :
    emptyRefsBlock.Doc = false ∧
    mapGet emptyRefsBlock.Content "key" = some (JSON.arr [JSON.str "T"]) ∧
    mapGet emptyRefsBlock.Content "references" = some (JSON.arr []) ∧
    Except.map blockNode.HeadKey (resolveHeadKey emptyRefsBlock) = Except.ok "" := by
  refine ⟨rfl, rfl, rfl, rfl⟩

/-! ## Parents and roots -/

/-- C6, as stated, fails: a block whose parent id `zz` is not in the index makes
neither `resolveParent` nor `CreateBlockTree` fail; the tree comes back with an
empty root list. -/
theorem CreateBlockTree_missing_parent_counterexample :
    mapGet (newBlock "c" orphanRecord).Content "parent" = some (JSON.str "zz") ∧
    "zz" ∉ Index.keys orphanIndex ∧
    Except.map Prod.snd (resolveParent (newBlock "c" orphanRecord) orphanIndex) =
      Except.ok false ∧
    Except.map Prod.fst (CreateBlockTree orphanIndex) = Except.ok [] := by
  refine ⟨rfl, by decide, rfl, rfl⟩

/-- C6, amended: for a block whose raw parent is a string id that is not a key of
the index, `resolveParent` succeeds, leaves `ParentBlock` nil and reports the
block as not top-level; so when `CreateBlockTree` succeeds the block is not
among the roots and has no parent. -/
theorem resolveParent_missing_parent
    (index : Index) (b : blockNode) (id pid : String)
    (hp : mapGet b.Content "parent" = some (JSON.str pid))
    (hmiss : pid ∉ Index.keys index) :
    resolveParent b index = Except.ok ({ b with ParentBlock := none }, false) ∧
    ((Index.keys index).Nodup → (id, b) ∈ index →
      ∀ roots out, CreateBlockTree index = Except.ok (roots, out) →
        id ∉ roots ∧ ∃ b2, Index.deref out id = some b2 ∧ b2.ParentBlock = none) := by
  constructor
  · unfold resolveParent
    rw [hp]
    simp [ptr_eq, hmiss]
  · intro hnd hm roots out h
    unfold CreateBlockTree at h
    cases hh : headKeyLoop index with
    | error e => simp [hh] at h
    | ok bs1 =>
      simp only [hh] at h
      obtain ⟨hk1, hf1, hb1⟩ := headKeyLoop_ok _ _ hh
      obtain ⟨hk2, -, hf2, hb2⟩ := treeLoop_ok _ _ _ _ h
      have hnd1 : (Index.keys bs1).Nodup := hk1 ▸ hnd
      have hmiss1 : pid ∉ Index.keys bs1 := hk1 ▸ hmiss
      constructor
      · intro hr
        obtain ⟨c, n1, c2, hc, hs, hpar⟩ := hb2 id hr
        obtain ⟨c0, hc0, hr0⟩ := hb1 id c hc
        have e0 : c0 = b := by
          have l1 := lookup_of_mem_nodup index id c0 hnd hc0
          have l2 := lookup_of_mem_nodup index id b hnd hm
          rw [l1] at l2; exact Option.some.inj l2
        subst e0
        have hcc : n1.Content = c0.Content :=
          (resolveSubBlocks_content _ _ _ hs).1.trans (resolveHeadKey_content _ _ hr0).1
        have := (resolveParent_ok _ _ _ _ hpar).1.1 rfl
        rw [hcc, hp] at this
        simp at this
      · obtain ⟨b1, hm1, hr1⟩ := hf1 id b hm
        obtain ⟨n1, b2, top, hm2, hs, hpar, -⟩ := hf2 id b1 hm1
        refine ⟨b2, lookup_of_mem_nodup out id b2 (show (Index.keys out).Nodup from hk2 ▸ hnd1) hm2, ?_⟩
        have hcc : n1.Content = b.Content :=
          (resolveSubBlocks_content _ _ _ hs).1.trans (resolveHeadKey_content _ _ hr1).1
        have := (resolveParent_ok _ _ _ _ hpar).2.2.1 pid (hcc ▸ hp)
        rw [this, ptr_eq]
        simp [hmiss1]

/-- Witness of C6 amended, at the index of `orphanRecord`. -/
theorem resolveParent_missing_parent_witness :
    resolveParent (newBlock "c" orphanRecord) orphanIndex =
      Except.ok ({ newBlock "c" orphanRecord with ParentBlock := none }, false) ∧
    ("c" ∉ ([] : List String) ∧
      ∃ b2, Index.deref orphanIndexResolved "c" = some b2 ∧ b2.ParentBlock = none) :=
  let h := resolveParent_missing_parent orphanIndex (newBlock "c" orphanRecord) "c" "zz" rfl
    (by decide)
  ⟨h.1, h.2 (by decide) (by simp [orphanIndex]) [] orphanIndexResolved rfl⟩

/-- C7: when `CreateBlockTree` succeeds, the roots are, each once, the keys of
the blocks whose raw parent is null or absent, and a block whose parent is a
string id of the index has that block as `ParentBlock`; when the parent of
some block is neither null nor a string, `CreateBlockTree` fails. -/
theorem CreateBlockTree_roots_and_parents (blocks : Index)
    (hnd : (Index.keys blocks).Nodup) :
    (∀ roots out, CreateBlockTree blocks = Except.ok (roots, out) →
      roots.Nodup ∧ Index.keys out = Index.keys blocks ∧
      (∀ id, id ∈ roots ↔ ∃ b, (id, b) ∈ blocks ∧
        (mapGet b.Content "parent" = none ∨ mapGet b.Content "parent" = some JSON.null)) ∧
      (∀ id b pid, (id, b) ∈ blocks → mapGet b.Content "parent" = some (JSON.str pid) →
        pid ∈ Index.keys blocks →
        ∃ b2, Index.deref out id = some b2 ∧ b2.ParentBlock = some pid)) ∧
    (∀ id b, (id, b) ∈ blocks →
      mapGet b.Content "parent" ≠ none → mapGet b.Content "parent" ≠ some JSON.null →
      (∀ pid, mapGet b.Content "parent" ≠ some (JSON.str pid)) →
      ∃ e, CreateBlockTree blocks = Except.error e) := by
  constructor
  · intro roots out h
    unfold CreateBlockTree at h
    cases hh : headKeyLoop blocks with
    | error e => simp [hh] at h
    | ok bs1 =>
      simp only [hh] at h
      obtain ⟨hk1, hf1, hb1⟩ := headKeyLoop_ok _ _ hh
      obtain ⟨hk2, hsub, hf2, hb2⟩ := treeLoop_ok _ _ _ _ h
      have hnd1 : (Index.keys bs1).Nodup := hk1 ▸ hnd
      refine ⟨hsub.nodup hnd1, hk2.trans hk1, ?_, ?_⟩
      · intro id
        constructor
        · intro hr
          obtain ⟨c, n1, c2, hc, hs, hpar⟩ := hb2 id hr
          obtain ⟨c0, hc0, hr0⟩ := hb1 id c hc
          refine ⟨c0, hc0, ?_⟩
          have hcc : n1.Content = c0.Content :=
            (resolveSubBlocks_content _ _ _ hs).1.trans (resolveHeadKey_content _ _ hr0).1
          exact hcc ▸ (resolveParent_ok _ _ _ _ hpar).1.1 rfl
        · rintro ⟨b, hm, hnil⟩
          obtain ⟨b1, hm1, hr1⟩ := hf1 id b hm
          obtain ⟨n1, b2, top, -, hs, hpar, htop⟩ := hf2 id b1 hm1
          have hcc : n1.Content = b.Content :=
            (resolveSubBlocks_content _ _ _ hs).1.trans (resolveHeadKey_content _ _ hr1).1
          exact htop ((resolveParent_ok _ _ _ _ hpar).1.2 (hcc ▸ hnil))
      · intro id b pid hm hp hpid
        obtain ⟨b1, hm1, hr1⟩ := hf1 id b hm
        obtain ⟨n1, b2, top, hm2, hs, hpar, -⟩ := hf2 id b1 hm1
        refine ⟨b2, lookup_of_mem_nodup out id b2 (show (Index.keys out).Nodup from hk2 ▸ hnd1) hm2, ?_⟩
        have hcc : n1.Content = b.Content :=
          (resolveSubBlocks_content _ _ _ hs).1.trans (resolveHeadKey_content _ _ hr1).1
        rw [(resolveParent_ok _ _ _ _ hpar).2.2.1 pid (hcc ▸ hp), ptr_eq]
        simp [hk1, hpid]
  · intro id b hm h1 h2 h3
    unfold CreateBlockTree
    cases hh : headKeyLoop blocks with
    | error e => exact ⟨e, rfl⟩
    | ok bs1 =>
      obtain ⟨-, hf1, -⟩ := headKeyLoop_ok _ _ hh
      obtain ⟨b1, hm1, hr1⟩ := hf1 id b hm
      have hc := (resolveHeadKey_content _ _ hr1).1
      exact treeLoop_error bs1 bs1 id b1 hm1 (hc ▸ h1) (hc ▸ h2) (fun pid => hc ▸ h3 pid)

/-- Witness of C7, at the index of a root and its child. -/
theorem CreateBlockTree_roots_and_parents_witness :
    (["r"].Nodup ∧ Index.keys familyIndexResolved = Index.keys familyIndex ∧
      (∀ id, id ∈ ["r"] ↔ ∃ b, (id, b) ∈ familyIndex ∧
        (mapGet b.Content "parent" = none ∨ mapGet b.Content "parent" = some JSON.null)) ∧
      (∀ id b pid, (id, b) ∈ familyIndex →
        mapGet b.Content "parent" = some (JSON.str pid) → pid ∈ Index.keys familyIndex →
        ∃ b2, Index.deref familyIndexResolved id = some b2 ∧ b2.ParentBlock = some pid)) :=
  (CreateBlockTree_roots_and_parents familyIndex (by decide)).1 ["r"] familyIndexResolved rfl

/-! ## Children -/

/-- C8: for a block without children whose raw `subBlocks` is a list of `n`
string ids, `resolveSubBlocks` succeeds; the children are the raw ids
reversed, each the pointer to the indexed block, or nil when the id is not a
key of the index. -/
theorem resolveSubBlocks_reversed
    (b : blockNode) (index : Index) (ids : List String)
    (hs : b.SubBlocks = [])
    (hraw : mapGet b.Content "subBlocks" = some (JSON.arr (ids.map JSON.str))) :
    ∃ b2, resolveSubBlocks b index = Except.ok b2 ∧
      b2.SubBlocks.length = ids.length ∧
      (∀ i, i < ids.length → b2.SubBlocks[i]? =
        (ids[ids.length - 1 - i]?).map
          (fun id => if id ∈ Index.keys index then some id else none)) ∧
      b2.SubBlocks = ids.reverse.map (Index.ptr index) := by
  have hloop := subBlocksLoop_strings index b.Id ids.reverse []
  refine ⟨{ b with SubBlocks := ids.reverse.map (Index.ptr index) }, ?_, ?_, ?_, rfl⟩
  · unfold resolveSubBlocks
    rw [hraw]
    simp only [asList, hs, ← List.map_reverse]
    rw [hloop]
    simp
  · simp
  · intro i hi
    have : (fun id => if id ∈ Index.keys index then some id else none) = Index.ptr index := by
      funext id; exact (ptr_eq index id).symm
    rw [this]
    rw [List.getElem?_map, List.getElem?_reverse hi]

/-- Witness of C8: the raw ids `a`, `b`, `zz`, of which `zz` is not indexed. -/
theorem resolveSubBlocks_reversed_witness :
    ∃ b2, resolveSubBlocks threeChildrenBlock threeChildrenIndex = Except.ok b2 ∧
      b2.SubBlocks.length = ["a", "b", "zz"].length ∧
      (∀ i, i < ["a", "b", "zz"].length → b2.SubBlocks[i]? =
        (["a", "b", "zz"][["a", "b", "zz"].length - 1 - i]?).map
          (fun id => if id ∈ Index.keys threeChildrenIndex then some id else none)) ∧
      b2.SubBlocks = ["a", "b", "zz"].reverse.map (Index.ptr threeChildrenIndex) :=
  resolveSubBlocks_reversed threeChildrenBlock threeChildrenIndex ["a", "b", "zz"] rfl rfl

/-! ## The index -/

/-- C9: when `CreateAllBlocks` succeeds, the keys of the index are distinct and
are the ids of the records that are not scaffold; the block under an id has
that id, an empty head label, no children, and is the one built from the last
such record, a document exactly when that record has `docUpdated`; the index
is the same as for the input without its scaffold records. -/
theorem CreateAllBlocks_index (data : RawMap) (index : Index)
    (h : CreateAllBlocks data = Except.ok index) :
    ∃ rawRems, asList (mapGet data "docs") = some rawRems ∧
      (Index.keys index).Nodup ∧
      (∀ id, id ∈ Index.keys index ↔
        ∃ rem, JSON.obj rem ∈ rawRems ∧ isScaffold rem = false ∧
          asString (mapGet rem "_id") = some id) ∧
      (∀ id b, (id, b) ∈ index →
        b.Id = id ∧ b.HeadKey = "" ∧ b.SubBlocks = [] ∧
        ∃ rem, lastRecord id rawRems = some rem ∧ JSON.obj rem ∈ rawRems ∧
          isScaffold rem = false ∧ asString (mapGet rem "_id") = some id ∧
          (b.Doc = true ↔ ∃ v, mapGet rem "docUpdated" = some v) ∧
          b = newBlock id rem) ∧
      createLoop (rawRems.filter keptRecord) [] = Except.ok index := by
  unfold CreateAllBlocks at h
  cases hd : asList (mapGet data "docs") with
  | none => simp [hd] at h
  | some rawRems =>
    simp only [hd] at h
    obtain ⟨hnd, hderef, -⟩ := createLoop_ok rawRems [] index h
    have hnd1 : (Index.keys index).Nodup := hnd (by simp [Index.keys])
    refine ⟨rawRems, rfl, hnd1, ?_, ?_, ?_⟩
    · intro id
      show id ∈ index.map Prod.fst ↔ _
      rw [← lookup_isSome_iff id index]
      have hd1 := hderef id
      unfold Index.deref at hd1
      rw [hd1]
      constructor
      · intro hs
        cases hl : lastRecord id rawRems with
        | none => simp [hl] at hs
        | some rem => exact ⟨rem, lastRecord_some id rawRems rem hl⟩
      · rintro ⟨rem, hm, hsc, hid⟩
        obtain ⟨r, hr⟩ := lastRecord_isSome id rawRems rem hm hsc hid
        simp [hr]
    · intro id b hm
      have hl := lookup_of_mem_nodup index id b hnd1 hm
      have hd1 := hderef id
      unfold Index.deref at hd1
      rw [hl] at hd1
      cases hr : lastRecord id rawRems with
      | none => simp [hr] at hd1
      | some rem =>
        simp only [hr, Option.some.injEq] at hd1
        obtain ⟨h1, h2, h3⟩ := lastRecord_some id rawRems rem hr
        subst hd1
        refine ⟨rfl, rfl, rfl, rem, rfl, h1, h2, h3, ?_, rfl⟩
        simp [newBlock, Option.isSome_iff_exists]
    · rw [createLoop_filter]; exact h

/-- Witness of C9, at an input with a scaffold record, a document and a note. -/
theorem CreateAllBlocks_index_witness :
    CreateAllBlocks sampleData = Except.ok sampleIndex ∧
    ∃ rawRems, asList (mapGet sampleData "docs") = some rawRems ∧
      (Index.keys sampleIndex).Nodup ∧
      (∀ id, id ∈ Index.keys sampleIndex ↔
        ∃ rem, JSON.obj rem ∈ rawRems ∧ isScaffold rem = false ∧
          asString (mapGet rem "_id") = some id) ∧
      (∀ id b, (id, b) ∈ sampleIndex →
        b.Id = id ∧ b.HeadKey = "" ∧ b.SubBlocks = [] ∧
        ∃ rem, lastRecord id rawRems = some rem ∧ JSON.obj rem ∈ rawRems ∧
          isScaffold rem = false ∧ asString (mapGet rem "_id") = some id ∧
          (b.Doc = true ↔ ∃ v, mapGet rem "docUpdated" = some v) ∧
          b = newBlock id rem) ∧
      createLoop (rawRems.filter keptRecord) [] = Except.ok sampleIndex :=
  ⟨rfl, CreateAllBlocks_index sampleData sampleIndex rfl⟩

/-! ## References -/

/-- C10: a reference cell with a string id always resolves: to the head label
of the target when that is not empty, to the empty-reference text when it is
empty, and to the broken-reference text when the id is not in the index. -/
theorem parseReference_resolves
    (b : blockNode) (cell : RawMap) (index : Index) (id : String)
    (hid : asString (mapGet cell "_id") = some id) :
    (∃ s, parseReference b cell index = Except.ok s) ∧
    (Index.deref index id = none →
      parseReference b cell index = Except.ok " **BROKEN REFERENCE** ") ∧
    (∀ target, Index.deref index id = some target → target.HeadKey = "" →
      parseReference b cell index = Except.ok "__EMPTY REFERENCE__") ∧
    (∀ target, Index.deref index id = some target → target.HeadKey ≠ "" →
      parseReference b cell index = Except.ok target.HeadKey) := by
  unfold parseReference
  rw [hid]
  cases hd : Index.deref index id with
  | none => simp [hd]
  | some target =>
    by_cases hh : target.HeadKey = ""
    · simp [hd, hh]
    · simp [hd, hh]

/-- Witness of C10: a reference to a block with head label `Target`. -/
theorem parseReference_resolves_witness :
    parseReference emptyRefsBlock referenceCell [("t1", targetBlock)] = Except.ok "Target" :=
  (parseReference_resolves emptyRefsBlock referenceCell [("t1", targetBlock)] "t1" rfl).2.2.2
    targetBlock rfl (by decide)

/-! ## Facts about the content parsers -/

theorem stringsJoin_empty_sep (l : List String) :
    stringsJoin l "" = l.foldr (fun r acc => r ++ acc) "" := by
  induction l with
  | nil => rfl
  | cons a rest ih =>
    cases rest with
    | nil => simp [stringsJoin]
    | cons b rest2 =>
      simp only [stringsJoin, String.append_empty, List.foldr_cons] at ih ⊢
      rw [ih]

theorem foldr_append_replicate_empty (n : Nat) (rs : List String) :
    (List.replicate n "" ++ rs).foldr (fun r acc => r ++ acc) "" =
      rs.foldr (fun r acc => r ++ acc) "" := by
  induction n with
  | zero => simp
  | succ n ih => simp [List.replicate_succ, ih]

theorem parseCells_ok (b : blockNode) (index : Index) (key : String) (cells : List JSON)
    (acc total : List String) (h : parseCells b index key cells acc = Res.ok total) :
    ∃ rs, List.Forall₂ (fun cell r => parseCell b index key cell = Res.ok r) cells rs ∧
      total = acc ++ rs := by
  induction cells generalizing acc with
  | nil =>
    simp [parseCells] at h
    exact ⟨[], List.Forall₂.nil, by simp [h]⟩
  | cons c rest ih =>
    unfold parseCells at h
    cases hc : parseCell b index key c with
    | ok appendix =>
      simp only [hc] at h
      obtain ⟨rs, hf, ht⟩ := ih _ h
      exact ⟨appendix :: rs, List.Forall₂.cons hc hf, by simp [ht]⟩
    | error e => simp [hc] at h
    | panic => simp [hc] at h

theorem parse_ok (b : blockNode) (index : Index) (key s : String)
    (h : parse b index key = Res.ok s) :
    (asList (mapGet b.Content key) = none → s = "") ∧
    (∀ cells, asList (mapGet b.Content key) = some cells →
      ∃ rs, List.Forall₂ (fun cell r => parseCell b index key cell = Res.ok r) cells rs ∧
        s = rs.foldr (fun r acc => r ++ acc) "") := by
  unfold parse at h
  split at h
  · rename_i hn
    cases h
    exact ⟨fun _ => rfl, fun cells hc => (by rw [hn] at hc; cases hc)⟩
  · rename_i he
    cases h
    refine ⟨fun _ => rfl, fun cells hc => ?_⟩
    rw [he] at hc
    cases hc
    exact ⟨[], List.Forall₂.nil, rfl⟩
  · rename_i content hne hs
    refine ⟨fun hn => (by rw [hs] at hn; cases hn), fun cells hc => ?_⟩
    rw [hs] at hc
    cases hc
    cases hp : parseCells b index key content (List.replicate content.length "") with
    | ok total =>
      simp only [hp] at h
      cases h
      obtain ⟨rs, hf, ht⟩ := parseCells_ok _ _ _ _ _ _ hp
      refine ⟨rs, hf, ?_⟩
      rw [stringsJoin_empty_sep, ht, foldr_append_replicate_empty]
    | error e => simp [hp] at h
    | panic => simp [hp] at h

theorem forall2_mem_left {α β : Type} (R : α → β → Prop) (l1 : List α) (l2 : List β)
    (h : List.Forall₂ R l1 l2) (a : α) (ha : a ∈ l1) : ∃ r, R a r := by
  induction h with
  | nil => cases ha
  | cons h1 _ ih =>
    rcases List.mem_cons.1 ha with e | ha
    · subst e; exact ⟨_, h1⟩
    · exact ih ha

theorem parseReference_nonempty (b : blockNode) (cell : RawMap) (index : Index) (s : String)
    (h : parseReference b cell index = Except.ok s) : s ≠ "" := by
  unfold parseReference at h
  split at h
  · cases h
  · split at h
    · cases h; decide
    · split at h
      · cases h; decide
      · rename_i hne
        cases h; exact hne

theorem parseImage_nonempty (b : blockNode) (cell : RawMap) (s : String)
    (h : parseImage b cell = Except.ok s) : s ≠ "" := by
  unfold parseImage at h
  split at h
  · cases h
  · split at h
    · cases h
    · cases h
      simp [stringsJoin, string_append_eq_empty]

theorem parseCodeBlock_nonempty (b : blockNode) (cell : RawMap) (s : String)
    (h : parseCodeBlock b cell = Except.ok s) : s ≠ "" := by
  unfold parseCodeBlock at h
  split at h
  · cases h
  · cases h
    simp [stringsJoin, string_append_eq_empty]

theorem parseWebLink_nonempty (index : Index) (qId s : String)
    (h : parseWebLink index qId = Except.ok s) : s ≠ "" := by
  unfold parseWebLink at h
  split at h
  · cases h; decide
  · split at h
    · cases h
    · split at h
      · cases h
      · split at h
        · cases h
        · split at h
          · cases h
          · cases h
            simp [stringsJoin, string_append_eq_empty]

theorem ok_of_nonempty_check (x s : String) (e : Err)
    (h : (if x = "" then Except.error e else Except.ok x) = Except.ok s) : s ≠ "" := by
  split at h
  · cases h
  · rename_i hne
    cases h; exact hne

theorem parseMarkUp_nonempty (b : blockNode) (cell : RawMap) (index : Index) (s : String)
    (h : parseMarkUp b cell index = Except.ok s) : s ≠ "" := by
  unfold parseMarkUp at h
  cases ht : asString (mapGet cell "text") with
  | none => simp [ht] at h
  | some text =>
    cases hq : asString (mapGet cell "qId") with
    | some qId =>
      simp only [ht, hq] at h
      exact parseWebLink_nonempty _ _ _ h
    | none =>
      simp only [ht, hq] at h
      exact ok_of_nonempty_check _ _ _ h

theorem parseCell_unknown_kind (b : blockNode) (index : Index) (key : String)
    (cell : RawMap) (kind : String) (hk : asString (mapGet cell "i") = some kind)
    (hq : kind ≠ "q") (hi : kind ≠ "i") (ho : kind ≠ "o") (hm : kind ≠ "m") :
    parseCell b index key (JSON.obj cell) = Res.error (Err.extracting b.Id) := by
  simp [parseCell, hk, hq, hi, ho, hm]

theorem parseCell_tagged_no_panic (b : blockNode) (index : Index) (key : String)
    (c : JSON) (h : kindTagged c = true) : parseCell b index key c ≠ Res.panic := by
  cases c with
  | obj cell =>
    simp only [kindTagged, Option.isSome_iff_exists] at h
    obtain ⟨kind, hk⟩ := h
    simp only [parseCell, hk]
    split
    · simp
    · split <;> simp
  | null => simp [parseCell]
  | bool _ => simp [parseCell]
  | num _ => simp [parseCell]
  | str _ => simp [parseCell]
  | arr _ => simp [parseCell]

theorem parseCells_no_panic (b : blockNode) (index : Index) (key : String)
    (cells : List JSON) (acc : List String) (h : ∀ c ∈ cells, kindTagged c = true) :
    parseCells b index key cells acc ≠ Res.panic := by
  induction cells generalizing acc with
  | nil => simp [parseCells]
  | cons c rest ih =>
    unfold parseCells
    cases hc : parseCell b index key c with
    | ok appendix => exact ih _ (fun d hd => h d (List.mem_cons_of_mem _ hd))
    | error e => simp
    | panic => exact absurd hc (parseCell_tagged_no_panic _ _ _ _ (h c (List.mem_cons_self _ _)))

theorem parse_no_panic (b : blockNode) (index : Index) (key : String)
    (h : ∀ cells, asList (mapGet b.Content key) = some cells →
      ∀ c ∈ cells, kindTagged c = true) :
    parse b index key ≠ Res.panic := by
  unfold parse
  split
  · simp
  · simp
  · rename_i content _ hs
    cases hp : parseCells b index key content (List.replicate content.length "") with
    | ok total => simp
    | error e => simp
    | panic => exact absurd hp (parseCells_no_panic _ _ _ _ _ (h content hs))

theorem parse_not_ok_of_mem (b : blockNode) (index : Index) (key : String)
    (cells : List JSON) (c : JSON) (hs : asList (mapGet b.Content key) = some cells)
    (hc : c ∈ cells) (hbad : ∀ r, parseCell b index key c ≠ Res.ok r) (s : String) :
    parse b index key ≠ Res.ok s := by
  intro h
  obtain ⟨rs, hf, -⟩ := (parse_ok b index key s h).2 cells hs
  obtain ⟨r, hr⟩ := forall2_mem_left _ _ _ hf c hc
  exact hbad r hr

theorem parseContent_not_ok_of_parse (b : blockNode) (index : Index) (key : String)
    (hkey : key = "key" ∨ key = "value") (h : ∀ s, parse b index key ≠ Res.ok s)
    (b2 : blockNode) : parseContent b index ≠ Res.ok b2 := by
  unfold parseContent
  cases hk : parse b index "key" with
  | error e => simp
  | panic => simp
  | ok K =>
    cases hv : parse b index "value" with
    | error e => simp
    | panic => simp
    | ok V =>
      rcases hkey with e | e
      · subst e; exact absurd hk (h K)
      · subst e; exact absurd hv (h V)

theorem parseContent_no_panic (b : blockNode) (index : Index)
    (h : ∀ key cells, asList (mapGet b.Content key) = some cells →
      ∀ c ∈ cells, kindTagged c = true) :
    parseContent b index ≠ Res.panic := by
  unfold parseContent
  cases hk : parse b index "key" with
  | error e => simp
  | panic => exact absurd hk (parse_no_panic _ _ _ (h "key"))
  | ok K =>
    cases hv : parse b index "value" with
    | error e => simp
    | panic => exact absurd hv (parse_no_panic _ _ _ (h "value"))
    | ok V => simp

theorem parseContent_fields (b b2 : blockNode) (index : Index)
    (h : parseContent b index = Res.ok b2) :
    b2.SubBlocks = b.SubBlocks ∧ b2.HeadKey = b.HeadKey ∧ b2.Doc = b.Doc ∧
      b2.ParentBlock = b.ParentBlock := by
  unfold parseContent at h
  cases hk : parse b index "key" with
  | error e => simp [hk] at h
  | panic => simp [hk] at h
  | ok K =>
    cases hv : parse b index "value" with
    | error e => simp [hk, hv] at h
    | panic => simp [hk, hv] at h
    | ok V =>
      simp only [hk, hv, Res.ok.injEq] at h
      subst h
      simp

theorem parseAll_fields (todo : List String) (blocks out : Index)
    (h : parseAll todo blocks = Res.ok out) :
    Index.keys out = Index.keys blocks ∧
    ∀ p node, Index.deref out p = some node →
      ∃ n0, Index.deref blocks p = some n0 ∧ node.SubBlocks = n0.SubBlocks ∧
        node.HeadKey = n0.HeadKey := by
  induction todo generalizing blocks with
  | nil =>
    simp [parseAll] at h
    subst h
    exact ⟨rfl, fun p node hd => ⟨node, hd, rfl, rfl⟩⟩
  | cons id rest ih =>
    unfold parseAll at h
    cases hd : Index.deref blocks id with
    | none =>
      simp only [hd] at h
      exact ih blocks h
    | some n =>
      simp only [hd] at h
      cases hp : parseContent n blocks with
      | error e => simp [hp] at h
      | panic => simp [hp] at h
      | ok n2 =>
        simp only [hp] at h
        obtain ⟨hk, hf⟩ := ih _ h
        have hin : id ∈ Index.keys blocks :=
          (lookup_isSome_iff id blocks).1 (by unfold Index.deref at hd; simp [hd])
        refine ⟨by rw [hk, keys_insert]; simp [hin], fun p node hdp => ?_⟩
        obtain ⟨n0, h0, hs, hh⟩ := hf p node hdp
        rw [deref_insert] at h0
        by_cases hpi : p = id
        · subst hpi
          simp only [if_true, Option.some.injEq] at h0
          subst h0
          have := parseContent_fields _ _ _ hp
          exact ⟨n, hd, hs.trans this.1, hh.trans this.2.1⟩
        · simp only [hpi, if_false] at h0
          exact ⟨n0, h0, hs, hh⟩

/-! ## Facts about the writers -/

theorem writeRunes_eq (level : Nat) (l : List Char) (buf : String) :
    writeRunes level l buf = buf ++ String.mk (indentBreaks level l) := by
  induction l generalizing buf with
  | nil => apply String.ext; simp [writeRunes, indentBreaks]
  | cons r rest ih =>
    unfold writeRunes
    simp only
    rw [ih]
    apply String.ext
    by_cases h : r = '\n'
    · simp [h, indentBreaks, writeTabs_eq]
    · simp [h, indentBreaks]

theorem WriteContent_eq (node : blockNode) (level : Nat) :
    WriteContent node level =
      String.mk (List.replicate level '\t') ++ "- " ++
        String.mk (indentBreaks level node.StringedContent.data) ++ "\n" := by
  unfold WriteContent
  simp only [writeTabs_eq, writeRunes_eq]
  apply String.ext
  simp

theorem indentBreaks_lines (level : Nat) (text pre : List Char) (hpre : '\n' ∉ pre) :
    ∃ ls : List (List Char),
      ls.length = text.count '\n' + 1 ∧
      (∀ l ∈ ls, '\n' ∉ l ∧ List.replicate level '\t' <+: l) ∧
      List.replicate level '\t' ++ pre ++ indentBreaks level text ++ ['\n'] =
        (ls.map (fun l => l ++ ['\n'])).flatten := by
  induction text generalizing pre with
  | nil =>
    refine ⟨[List.replicate level '\t' ++ pre], by simp, ?_, by simp [indentBreaks]⟩
    intro l hl
    simp only [List.mem_singleton] at hl
    subst hl
    refine ⟨?_, List.prefix_append _ _⟩
    simp only [List.mem_append, not_or]
    exact ⟨fun hm => by simpa using List.eq_of_mem_replicate hm, hpre⟩
  | cons r rest ih =>
    by_cases h : r = '\n'
    · subst h
      obtain ⟨ls, hlen, hall, heq⟩ := ih [] (by simp)
      refine ⟨(List.replicate level '\t' ++ pre) :: ls, by simp [hlen], ?_, ?_⟩
      · intro l hl
        rcases List.mem_cons.1 hl with e | hl
        · subst e
          refine ⟨?_, List.prefix_append _ _⟩
          simp only [List.mem_append, not_or]
          exact ⟨fun hm => by simpa using List.eq_of_mem_replicate hm, hpre⟩
        · exact hall l hl
      · simp only [List.append_nil] at heq
        simp only [indentBreaks, if_true, List.map_cons, List.flatten_cons, ← heq]
        simp
    · have hpre2 : '\n' ∉ pre ++ [r] := by
        simp only [List.mem_append, List.mem_singleton, not_or]
        exact ⟨hpre, fun e => h e.symm⟩
      obtain ⟨ls, hlen, hall, heq⟩ := ih (pre ++ [r]) hpre2
      have hr : ¬ (r == '\n') = true := by simpa using h
      refine ⟨ls, by simp [hlen, List.count_cons, hr], hall, ?_⟩
      rw [← heq]
      simp [indentBreaks, h]

theorem written_append (a b : List Event) : written (a ++ b) = written a ++ written b := by
  induction a with
  | nil => rfl
  | cons e rest ih =>
    cases e <;> simp [written, ih]

theorem mem_written (d : List Event) (n : String) (h : n ∈ written d) :
    ∃ e ∈ d, Event.node e = some n := by
  induction d with
  | nil => simp [written] at h
  | cons e rest ih =>
    cases e with
    | create p =>
      obtain ⟨e, he, hn⟩ := ih (by simpa [written] using h)
      exact ⟨e, List.mem_cons_of_mem _ he, hn⟩
    | placeholder v m t =>
      obtain ⟨e, he, hn⟩ := ih (by simpa [written] using h)
      exact ⟨e, List.mem_cons_of_mem _ he, hn⟩
    | content v m t =>
      simp only [written, List.mem_cons] at h
      rcases h with e | h
      · subst e
        exact ⟨_, List.mem_cons_self _ _, rfl⟩
      · obtain ⟨e, he, hn⟩ := ih h
        exact ⟨e, List.mem_cons_of_mem _ he, hn⟩

theorem Grows.refl (index : Index) (A : Event → Prop) (st : WalkState) :
    Grows index A st st where
  visited_mono := fun _ h => h
  delta := ⟨[], by simp, by simp, by simp, by simp [written], fun _ h => Or.inl h⟩
  closed := fun _ h hn => absurd h hn

theorem Grows.trans {index : Index} {A : Event → Prop} {s1 s2 s3 : WalkState}
    (h12 : Grows index A s1 s2) (h23 : Grows index A s2 s3) : Grows index A s1 s3 := by
  obtain ⟨d1, hl1, ha1, hn1, hnd1, hv1⟩ := h12.delta
  obtain ⟨d2, hl2, ha2, hn2, hnd2, hv2⟩ := h23.delta
  refine ⟨fun n h => h23.visited_mono n (h12.visited_mono n h), ⟨d1 ++ d2, ?_, ?_, ?_, ?_, ?_⟩, ?_⟩
  · rw [hl2, hl1, List.append_assoc]
  · intro e he
    rcases List.mem_append.1 he with h | h
    · exact ha1 e h
    · exact ha2 e h
  · intro e he n hn
    rcases List.mem_append.1 he with h | h
    · exact ⟨(hn1 e h n hn).1, h23.visited_mono n (hn1 e h n hn).2⟩
    · exact ⟨fun hv => (hn2 e h n hn).1 (h12.visited_mono n hv), (hn2 e h n hn).2⟩
  · rw [written_append]
    refine List.Nodup.append hnd1 hnd2 ?_
    intro n h1 h2
    obtain ⟨e1, he1, hne1⟩ := mem_written d1 n h1
    obtain ⟨e2, he2, hne2⟩ := mem_written d2 n h2
    exact (hn2 e2 he2 n hne2).1 (hn1 e1 he1 n hne1).2
  · intro n hn
    rw [written_append]
    rcases hv2 n hn with h | h
    · rcases hv1 n h with h | h
      · exact Or.inl h
      · exact Or.inr (List.mem_append.2 (Or.inl h))
    · exact Or.inr (List.mem_append.2 (Or.inr h))
  · intro n hn hnot nd c hd hc
    by_cases h2 : n ∈ s2.visited
    · exact h23.visited_mono c (h12.closed n h2 hnot nd c hd hc)
    · exact h23.closed n hn h2 nd c hd hc

theorem Grows.weaken {index : Index} {A B : Event → Prop} {s1 s2 : WalkState}
    (h : Grows index A s1 s2) (hab : ∀ e, A e → B e) : Grows index B s1 s2 := by
  obtain ⟨d, hl, ha, hn, hnd, hv⟩ := h.delta
  exact ⟨h.visited_mono, ⟨d, hl, fun e he => hab e (ha e he), hn, hnd, hv⟩, h.closed⟩

theorem walkChildren_grows (index : Index) (A : Event → Prop)
    (step : WalkState → String → Option WalkState) (l : List (Option String))
    (hstep : ∀ s c s2, some c ∈ l → step s c = some s2 → Grows index A s s2 ∧ c ∈ s2.visited)
    (st st2 : WalkState) (h : walkChildren step l st = some st2) :
    Grows index A st st2 ∧ ∀ c, some c ∈ l → c ∈ st2.visited := by
  induction l generalizing st with
  | nil =>
    simp [walkChildren] at h
    subst h
    exact ⟨Grows.refl _ _ _, fun c hc => by cases hc⟩
  | cons x rest ih =>
    cases x with
    | none =>
      simp only [walkChildren] at h
      obtain ⟨g, hc⟩ := ih (fun s c s2 hm => hstep s c s2 (List.mem_cons_of_mem _ hm)) st h
      refine ⟨g, fun c hm => ?_⟩
      rcases List.mem_cons.1 hm with e | hm
      · cases e
      · exact hc c hm
    | some c0 =>
      simp only [walkChildren] at h
      cases hs : step st c0 with
      | none => simp [hs] at h
      | some s1 =>
        simp only [hs] at h
        obtain ⟨g1, hv1⟩ := hstep st c0 s1 (List.mem_cons_self _ _) hs
        obtain ⟨g2, hc⟩ := ih (fun s c s2 hm => hstep s c s2 (List.mem_cons_of_mem _ hm)) s1 h
        refine ⟨g1.trans g2, fun c hm => ?_⟩
        rcases List.mem_cons.1 hm with e | hm
        · cases e
          exact g2.visited_mono _ hv1
        · exact hc c hm

theorem Allowed.of_child (index : Index) (p c : String) (node : blockNode) (w w1 : Nat)
    (hd : Index.deref index p = some node) (hc : some c ∈ node.SubBlocks)
    (hw : w1 = w ∨ opensFile node = true) (e : Event) (h : Allowed index c w1 e) :
    Allowed index p w e := by
  have hpc : ∀ n, Reach index c n → Reach index p n :=
    fun n hr => Reach.step p c n node hd hc hr
  cases e with
  | create path => trivial
  | placeholder v n t => exact hpc n h
  | content v n t =>
    obtain ⟨hr, hv⟩ := h
    refine ⟨hpc n hr, ?_⟩
    rcases hv with hv | ⟨d, nd, h1, h2, h3, h4⟩
    · rcases hw with hw | hw
      · exact Or.inl (hv.trans hw)
      · exact Or.inr ⟨p, node, hd, hw, Reach.refl p, hpc n hr⟩
    · exact Or.inr ⟨d, nd, h1, h2, hpc d h3, h4⟩

theorem walk_visited (cfg : Config) (index : Index) (fuel : Nat) (st : WalkState)
    (p : String) (level w : Nat) (hv : p ∈ st.visited) :
    walk cfg index (fuel + 1) st (some p) level w = some st := by
  simp [walk, hv]

theorem walk_succ (cfg : Config) (index : Index) (fuel : Nat) (st : WalkState)
    (p : String) (level w : Nat) (node : blockNode)
    (hv : p ∉ st.visited) (hd : Index.deref index p = some node) :
    walk cfg index (fuel + 1) st (some p) level w =
      walkChildren
        (fun s next => walk cfg index fuel s (some next)
          ((if opensFile node then 0 else level) + 1)
          (if opensFile node then nextWriter st.log else w))
        node.SubBlocks
        { visited := p :: st.visited,
          log := st.log ++ ownEvents cfg node p level w (nextWriter st.log) } := by
  by_cases ho : opensFile node = true
  · have ho2 : (node.Doc && node.ParentBlock.isSome) = true := ho
    simp [walk, hv, hd, ownEvents, ho, ho2]
  · have ho2 : ¬ (node.Doc && node.ParentBlock.isSome) = true := ho
    simp only [Bool.not_eq_true] at ho ho2
    simp [walk, hv, hd, ownEvents, ho, ho2]

theorem walk_unindexed (cfg : Config) (index : Index) (fuel : Nat) (st : WalkState)
    (p : String) (level w : Nat) (hv : p ∉ st.visited) (hd : Index.deref index p = none) :
    walk cfg index (fuel + 1) st (some p) level w = none := by
  simp [walk, hv, hd]

theorem written_ownEvents (cfg : Config) (node : blockNode) (p : String) (level w wNew : Nat) :
    written (ownEvents cfg node p level w wNew) = [p] := by
  unfold ownEvents
  split <;> rfl

theorem node_ownEvents (cfg : Config) (node : blockNode) (p : String) (level w wNew : Nat)
    (e : Event) (he : e ∈ ownEvents cfg node p level w wNew) (n : String)
    (hn : Event.node e = some n) : n = p := by
  unfold ownEvents at he
  split at he
  · simp only [List.mem_cons, List.mem_singleton, List.not_mem_nil, or_false] at he
    rcases he with e1 | e1 | e1 <;> subst e1 <;> simp [Event.node] at hn
    · exact hn.symm
    · exact hn.symm
  · simp only [List.mem_singleton] at he
    subst he
    simp [Event.node] at hn
    exact hn.symm

theorem allowed_ownEvents (cfg : Config) (index : Index) (node : blockNode) (p : String)
    (level w wNew : Nat) (hd : Index.deref index p = some node)
    (e : Event) (he : e ∈ ownEvents cfg node p level w wNew) : Allowed index p w e := by
  unfold ownEvents at he
  split at he
  · rename_i ho
    simp only [List.mem_cons, List.mem_singleton, List.not_mem_nil, or_false] at he
    rcases he with e1 | e1 | e1 <;> subst e1
    · exact Reach.refl p
    · trivial
    · exact ⟨Reach.refl p, Or.inr ⟨p, node, hd, ho, Reach.refl p, Reach.refl p⟩⟩
  · simp only [List.mem_singleton] at he
    subst he
    exact ⟨Reach.refl p, Or.inl rfl⟩

theorem walk_grows (cfg : Config) (index : Index) (fuel : Nat) :
    ∀ (st st2 : WalkState) (p : String) (level w : Nat),
      walk cfg index fuel st (some p) level w = some st2 →
      Grows index (Allowed index p w) st st2 ∧ p ∈ st2.visited := by
  induction fuel with
  | zero => intro st st2 p level w h; simp [walk] at h
  | succ fuel ih =>
    intro st st2 p level w h
    by_cases hv : p ∈ st.visited
    · rw [walk_visited cfg index fuel st p level w hv] at h
      cases h
      exact ⟨Grows.refl _ _ _, hv⟩
    · cases hd : Index.deref index p with
      | none => rw [walk_unindexed cfg index fuel st p level w hv hd] at h; cases h
      | some node =>
        rw [walk_succ cfg index fuel st p level w node hv hd] at h
        have hw : (if opensFile node then nextWriter st.log else w) = w ∨
            opensFile node = true := by
          by_cases ho : opensFile node = true
          · exact Or.inr ho
          · exact Or.inl (by simp [ho])
        obtain ⟨g, hch⟩ := walkChildren_grows index (Allowed index p w) _ node.SubBlocks
          (fun s c s2 hm hs =>
            ⟨(ih s s2 c _ _ hs).1.weaken (Allowed.of_child index p c node w _ hd hm hw),
              (ih s s2 c _ _ hs).2⟩) _ st2 h
        obtain ⟨d, hl, ha, hn, hnd, hvis⟩ := g.delta
        have hp2 : p ∈ st2.visited := g.visited_mono p (List.mem_cons_self _ _)
        refine ⟨⟨fun n hn0 => g.visited_mono n (List.mem_cons_of_mem _ hn0),
          ⟨ownEvents cfg node p level w (nextWriter st.log) ++ d, ?_, ?_, ?_, ?_, ?_⟩, ?_⟩, hp2⟩
        · rw [hl, List.append_assoc]
        · intro e he
          rcases List.mem_append.1 he with h1 | h1
          · exact allowed_ownEvents cfg index node p level w _ hd e h1
          · exact ha e h1
        · intro e he n hne
          rcases List.mem_append.1 he with h1 | h1
          · have := node_ownEvents cfg node p level w _ e h1 n hne
            subst this
            exact ⟨hv, hp2⟩
          · exact ⟨fun h0 => (hn e h1 n hne).1 (List.mem_cons_of_mem _ h0), (hn e h1 n hne).2⟩
        · rw [written_append, written_ownEvents]
          refine List.nodup_cons.2 ⟨?_, hnd⟩
          intro hm
          obtain ⟨e, he, hne⟩ := mem_written d p hm
          exact (hn e he p hne).1 (List.mem_cons_self _ _)
        · intro n hn2
          rw [written_append, written_ownEvents]
          rcases hvis n hn2 with h1 | h1
          · rcases List.mem_cons.1 h1 with e | h1
            · exact Or.inr (by simp [e])
            · exact Or.inl h1
          · exact Or.inr (List.mem_append.2 (Or.inr h1))
        · intro n hn2 hnot nd c hdn hc
          by_cases hnp : n = p
          · subst hnp
            rw [hd] at hdn
            cases hdn
            exact hch c hc
          · exact g.closed n hn2 (fun h0 => by
              rcases List.mem_cons.1 h0 with e | h0
              · exact hnp e
              · exact hnot h0) nd c hdn hc

theorem filter_length_mono (l : List String) (f g : String → Bool)
    (h : ∀ k, g k = true → f k = true) : (l.filter g).length ≤ (l.filter f).length := by
  induction l with
  | nil => simp
  | cons k rest ih =>
    cases hg : g k with
    | false =>
      cases hf : f k with
      | false => simpa [List.filter_cons, hg, hf] using ih
      | true => simpa [List.filter_cons, hg, hf] using Nat.le_succ_of_le ih
    | true => simpa [List.filter_cons, hg, h k hg] using ih

theorem filter_length_lt (l : List String) (f g : String → Bool)
    (h : ∀ k, g k = true → f k = true) (p : String) (hp : p ∈ l)
    (hg : g p = false) (hf : f p = true) : (l.filter g).length < (l.filter f).length := by
  induction l with
  | nil => cases hp
  | cons k rest ih =>
    by_cases hkp : k = p
    · subst hkp
      simpa [List.filter_cons, hg, hf] using Nat.lt_succ_of_le (filter_length_mono rest f g h)
    · have hp2 : p ∈ rest := by
        rcases List.mem_cons.1 hp with e | h2
        · exact absurd e.symm hkp
        · exact h2
      cases hgk : g k with
      | false =>
        cases hfk : f k with
        | false => simpa [List.filter_cons, hgk, hfk] using ih hp2
        | true => simpa [List.filter_cons, hgk, hfk] using Nat.lt_succ_of_lt (ih hp2)
      | true => simpa [List.filter_cons, hgk, h k hgk] using ih hp2

theorem contains_eq_false_iff (v : List String) (k : String) :
    v.contains k = false ↔ k ∉ v := by
  rw [← Bool.not_eq_true]
  simp

theorem unvisited_mono (index : Index) (v v2 : List String) (h : ∀ n, n ∈ v → n ∈ v2) :
    unvisited index v2 ≤ unvisited index v := by
  apply filter_length_mono
  intro k hk
  simp only [Bool.not_eq_true', contains_eq_false_iff] at hk ⊢
  exact fun hv => hk (h k hv)

theorem unvisited_lt (index : Index) (v : List String) (p : String) (node : blockNode)
    (hd : Index.deref index p = some node) (hv : p ∉ v) :
    unvisited index (p :: v) < unvisited index v := by
  have hp : p ∈ Index.keys index :=
    (lookup_isSome_iff p index).1 (by unfold Index.deref at hd; simp [hd])
  apply filter_length_lt _ _ _ _ p hp
  · simp
  · simpa using hv
  · intro k hk
    simp only [Bool.not_eq_true', contains_eq_false_iff, List.mem_cons, not_or] at hk ⊢
    exact hk.2

theorem unvisited_le_length (index : Index) (v : List String) :
    unvisited index v ≤ index.length := by
  unfold unvisited Index.keys
  exact (List.length_filter_le _ _).trans (by simp)

theorem walkChildren_total (index : Index) (step : WalkState → String → Option WalkState)
    (bound : Nat) (l : List (Option String))
    (hstep : ∀ s c, some c ∈ l → unvisited index s.visited ≤ bound →
      ∃ s2, step s c = some s2 ∧ unvisited index s2.visited ≤ unvisited index s.visited)
    (st : WalkState) (hb : unvisited index st.visited ≤ bound) :
    ∃ st2, walkChildren step l st = some st2 := by
  induction l generalizing st with
  | nil => exact ⟨st, rfl⟩
  | cons x rest ih =>
    cases x with
    | none =>
      simp only [walkChildren]
      exact ih (fun s c hm => hstep s c (List.mem_cons_of_mem _ hm)) st hb
    | some c0 =>
      obtain ⟨s1, hs1, hle⟩ := hstep st c0 (List.mem_cons_self _ _) hb
      simp only [walkChildren, hs1]
      exact ih (fun s c hm => hstep s c (List.mem_cons_of_mem _ hm)) s1 (hle.trans hb)

theorem walk_total (cfg : Config) (index : Index) (hwf : ChildrenIndexed index) (fuel : Nat) :
    ∀ (st : WalkState) (p : String) (node : blockNode) (level w : Nat),
      Index.deref index p = some node → unvisited index st.visited < fuel →
      ∃ st2, walk cfg index fuel st (some p) level w = some st2 := by
  induction fuel with
  | zero => intro st p node level w _ h; exact absurd h (Nat.not_lt_zero _)
  | succ fuel ih =>
    intro st p node level w hd hlt
    by_cases hv : p ∈ st.visited
    · exact ⟨st, walk_visited cfg index fuel st p level w hv⟩
    · rw [walk_succ cfg index fuel st p level w node hv hd]
      have hlt2 : unvisited index (p :: st.visited) < fuel :=
        Nat.lt_of_lt_of_le (unvisited_lt index st.visited p node hd hv) (Nat.le_of_lt_succ hlt)
      refine walkChildren_total index _ (unvisited index (p :: st.visited)) node.SubBlocks
        ?_ _ (Nat.le_refl _)
      intro s c hm hb
      obtain ⟨cn, hcn⟩ := hwf p node c hd hm
      obtain ⟨s2, hs2⟩ := ih s c cn _ _ hcn (Nat.lt_of_le_of_lt hb hlt2)
      exact ⟨s2, hs2, unvisited_mono index _ _ (walk_grows cfg index fuel s s2 c _ _ hs2).1.visited_mono⟩

theorem walkChildren_congr (step step2 : WalkState → String → Option WalkState)
    (l : List (Option String))
    (h : ∀ s c s2, some c ∈ l → step s c = some s2 → step2 s c = some s2)
    (st st2 : WalkState) (hw : walkChildren step l st = some st2) :
    walkChildren step2 l st = some st2 := by
  induction l generalizing st with
  | nil => exact hw
  | cons x rest ih =>
    cases x with
    | none =>
      simp only [walkChildren] at hw ⊢
      exact ih (fun s c s2 hm => h s c s2 (List.mem_cons_of_mem _ hm)) st hw
    | some c0 =>
      simp only [walkChildren] at hw ⊢
      cases hs : step st c0 with
      | none => simp [hs] at hw
      | some s1 =>
        simp only [hs] at hw
        rw [h st c0 s1 (List.mem_cons_self _ _) hs]
        exact ih (fun s c s2 hm => h s c s2 (List.mem_cons_of_mem _ hm)) s1 hw

theorem walk_fuel_mono (cfg : Config) (index : Index) (fuel : Nat) :
    ∀ (extra : Nat) (st st2 : WalkState) (node : Option String) (level w : Nat),
      walk cfg index fuel st node level w = some st2 →
      walk cfg index (fuel + extra) st node level w = some st2 := by
  induction fuel with
  | zero => intro extra st st2 node level w h; simp [walk] at h
  | succ fuel ih =>
    intro extra st st2 node level w h
    have he : fuel + 1 + extra = (fuel + extra) + 1 := by omega
    rw [he]
    cases node with
    | none => simpa [walk] using h
    | some p =>
      by_cases hv : p ∈ st.visited
      · rw [walk_visited cfg index fuel st p level w hv] at h
        rw [walk_visited cfg index _ st p level w hv]
        exact h
      · cases hd : Index.deref index p with
        | none => rw [walk_unindexed cfg index fuel st p level w hv hd] at h; cases h
        | some nd =>
          rw [walk_succ cfg index fuel st p level w nd hv hd] at h
          rw [walk_succ cfg index _ st p level w nd hv hd]
          exact walkChildren_congr _ _ _ (fun s c s2 _ hs => ih extra s s2 (some c) _ _ hs) _ _ h

theorem deref_dropNil (index : Index) (p : String) :
    Index.deref (dropNil index) p =
      (Index.deref index p).map
        (fun b => { b with SubBlocks := b.SubBlocks.filter Option.isSome }) := by
  unfold Index.deref dropNil
  induction index with
  | nil => rfl
  | cons kb rest ih =>
    obtain ⟨k, b⟩ := kb
    by_cases h : p = k
    · subst h; simp [List.lookup]
    · have : (p == k) = false := by simpa using h
      simp only [List.map_cons, List.lookup, this]
      exact ih

theorem walkChildren_filter (step : WalkState → String → Option WalkState)
    (l : List (Option String)) (st : WalkState) :
    walkChildren step (l.filter Option.isSome) st = walkChildren step l st := by
  induction l generalizing st with
  | nil => rfl
  | cons x rest ih =>
    cases x with
    | none => simp [List.filter, walkChildren, ih]
    | some c =>
      simp only [List.filter, Option.isSome_some, walkChildren]
      cases step st c with
      | none => rfl
      | some s1 => exact ih s1

theorem walk_dropNil (cfg : Config) (index : Index) (fuel : Nat) :
    ∀ (st : WalkState) (node : Option String) (level w : Nat),
      walk cfg (dropNil index) fuel st node level w = walk cfg index fuel st node level w := by
  induction fuel with
  | zero => intro st node level w; rfl
  | succ fuel ih =>
    intro st node level w
    cases node with
    | none => rfl
    | some p =>
      by_cases hv : p ∈ st.visited
      · rw [walk_visited _ _ _ _ _ _ _ hv, walk_visited _ _ _ _ _ _ _ hv]
      · cases hd : Index.deref index p with
        | none =>
          rw [walk_unindexed _ _ _ _ _ _ _ hv hd,
            walk_unindexed _ _ _ _ _ _ _ hv (by rw [deref_dropNil, hd]; rfl)]
        | some nd =>
          rw [walk_succ _ index _ _ _ _ _ nd hv hd,
            walk_succ _ (dropNil index) _ _ _ _ _
              { nd with SubBlocks := nd.SubBlocks.filter Option.isSome } hv
              (by rw [deref_dropNil, hd]; rfl)]
          simp only [ih]
          exact walkChildren_filter _ _ _

theorem childrenIndexed_of_check (index : Index) (h : childrenIndexedB index = true) :
    ChildrenIndexed index := by
  intro p node c hd hc
  have hm : (p, node) ∈ index := mem_of_lookup index p node hd
  unfold childrenIndexedB at h
  rw [List.all_eq_true] at h
  have h1 := h (p, node) hm
  rw [List.all_eq_true] at h1
  have h2 := h1 (some c) hc
  simp only [Option.isSome_iff_exists] at h2
  exact h2

theorem deref_isSome_of_keys (a b : Index) (h : Index.keys a = Index.keys b) (c : String)
    (hc : (Index.deref a c).isSome = true) : ∃ cn, Index.deref b c = some cn := by
  unfold Index.deref at hc ⊢
  have h1 : c ∈ a.map Prod.fst := (lookup_isSome_iff c a).1 hc
  have h2 : c ∈ b.map Prod.fst := by
    unfold Index.keys at h
    rw [← h]; exact h1
  exact Option.isSome_iff_exists.1 ((lookup_isSome_iff c b).2 h2)

theorem subBlocksLoop_indexed (index : Index) (id : String) (cells : List JSON)
    (acc subs : List (Option String))
    (h : subBlocksLoop index id cells acc = Except.ok subs) :
    ∀ c, some c ∈ subs → some c ∈ acc ∨ (Index.deref index c).isSome = true := by
  induction cells generalizing acc with
  | nil =>
    simp [subBlocksLoop] at h
    subst h
    exact fun c hc => Or.inl hc
  | cons x rest ih =>
    unfold subBlocksLoop at h
    cases hx : asString (some x) with
    | none => simp [hx] at h
    | some s =>
      simp only [hx] at h
      intro c hc
      rcases ih _ h c hc with h1 | h1
      · rcases List.mem_append.1 h1 with h2 | h2
        · exact Or.inl h2
        · simp only [List.mem_singleton] at h2
          right
          rw [ptr_eq] at h2
          split at h2
          · rename_i hin
            cases h2
            exact (lookup_isSome_iff _ index).2 hin
          · cases h2
      · exact Or.inr h1

theorem resolveSubBlocks_indexed (b b1 : blockNode) (index : Index)
    (h : resolveSubBlocks b index = Except.ok b1) :
    ∀ c, some c ∈ b1.SubBlocks → some c ∈ b.SubBlocks ∨ (Index.deref index c).isSome = true := by
  unfold resolveSubBlocks at h
  split at h
  · cases h
  · rename_i raw hraw
    cases hl : subBlocksLoop index b.Id raw.reverse b.SubBlocks with
    | error e => simp [hl] at h
    | ok subs =>
      simp only [hl] at h
      cases h
      exact subBlocksLoop_indexed _ _ _ _ _ hl

theorem treeLoop_back (index bs out : Index) (roots : List String)
    (h : treeLoop index bs = Except.ok (roots, out)) :
    ∀ id b2, (id, b2) ∈ out → ∃ b n1 top, (id, b) ∈ bs ∧
      resolveSubBlocks b index = Except.ok n1 ∧
      resolveParent n1 index = Except.ok (b2, top) := by
  induction bs generalizing out roots with
  | nil =>
    simp [treeLoop] at h
    obtain ⟨-, rfl⟩ := h
    intro id b2 hm
    cases hm
  | cons kb rest ih =>
    obtain ⟨k, node⟩ := kb
    unfold treeLoop at h
    cases h1 : resolveSubBlocks node index with
    | error e => simp [h1] at h
    | ok n1 =>
      cases h2 : resolveParent n1 index with
      | error e => simp [h1, h2] at h
      | ok r =>
        obtain ⟨b2, top⟩ := r
        cases h3 : treeLoop index rest with
        | error e => simp [h1, h2, h3] at h
        | ok r3 =>
          obtain ⟨tops, rest1⟩ := r3
          simp [h1, h2, h3] at h
          obtain ⟨-, ho⟩ := h
          subst ho
          intro id c2 hm
          rcases List.mem_cons.1 hm with e | hm
          · cases e
            exact ⟨node, n1, top, List.mem_cons_self _ _, h1, h2⟩
          · obtain ⟨b, m1, t, hb, hs1, hs2⟩ := ih rest1 tops h3 id c2 hm
            exact ⟨b, m1, t, List.mem_cons_of_mem _ hb, hs1, hs2⟩

theorem CreateBlockTree_childrenIndexed (blocks out : Index) (roots : List String)
    (hempty : ∀ id b, (id, b) ∈ blocks → b.SubBlocks = [])
    (h : CreateBlockTree blocks = Except.ok (roots, out)) :
    ChildrenIndexed out ∧ Index.keys out = Index.keys blocks ∧
      ∀ r, r ∈ roots → r ∈ Index.keys out := by
  unfold CreateBlockTree at h
  cases hh : headKeyLoop blocks with
  | error e => simp [hh] at h
  | ok bs1 =>
    simp only [hh] at h
    obtain ⟨hk1, -, hb1⟩ := headKeyLoop_ok _ _ hh
    obtain ⟨hk2, hsub, -, -⟩ := treeLoop_ok _ _ _ _ h
    refine ⟨?_, hk2.trans hk1, fun r hr => hk2 ▸ hsub.subset hr⟩
    intro p node c hd hc
    obtain ⟨b1, n1, top, hm1, hs, hp⟩ := treeLoop_back _ _ _ _ h p node (mem_of_lookup out p node hd)
    obtain ⟨b, hm, hr⟩ := hb1 p b1 hm1
    have e1 : node.SubBlocks = n1.SubBlocks := (resolveParent_ok _ _ _ _ hp).2.2.2.2.2.2.2
    have e2 : b1.SubBlocks = [] := by
      rw [(resolveHeadKey_content _ _ hr).2.2.2.1]; exact hempty p b hm
    rw [e1] at hc
    rcases resolveSubBlocks_indexed _ _ _ hs c hc with h1 | h1
    · rw [e2] at h1; cases h1
    · exact deref_isSome_of_keys bs1 out hk2.symm c h1

theorem parseAll_childrenIndexed (todo : List String) (blocks out : Index)
    (hwf : ChildrenIndexed blocks) (h : parseAll todo blocks = Res.ok out) :
    ChildrenIndexed out := by
  obtain ⟨hk, hf⟩ := parseAll_fields todo blocks out h
  intro p node c hd hc
  obtain ⟨n0, h0, hs, -⟩ := hf p node hd
  obtain ⟨cn, hcn⟩ := hwf p n0 c h0 (hs ▸ hc)
  exact deref_isSome_of_keys blocks out hk.symm c (by simp [hcn])

theorem writeRoots_total (cfg : Config) (index : Index) (hwf : ChildrenIndexed index)
    (roots : List String) (hroots : ∀ r, r ∈ roots → r ∈ Index.keys index)
    (log : List Event) : ∃ log2, writeRoots cfg index roots log = some log2 := by
  induction roots generalizing log with
  | nil => exact ⟨log, rfl⟩
  | cons r rest ih =>
    have hr : r ∈ index.map Prod.fst := hroots r (List.mem_cons_self _ _)
    obtain ⟨n, hn⟩ := Option.isSome_iff_exists.1 ((lookup_isSome_iff r index).2 hr)
    have hn2 : Index.deref index r = some n := hn
    have ih2 := ih (fun r2 h2 => hroots r2 (List.mem_cons_of_mem _ h2))
    unfold writeRoots
    simp only [hn2]
    split
    · exact ih2 log
    · obtain ⟨st2, h⟩ := walk_total cfg index hwf (index.length + 1)
        { visited := [], log := log ++
          [Event.create (cfg.OUTDIR ++ "/" ++ correctFileName n.HeadKey ++ ".md")] }
        r n 0 (nextWriter log) hn2 (Nat.lt_succ_of_le (unvisited_le_length index []))
      simp only [walkNodes, h, Option.map_some']
      exact ih2 _

theorem CreateAllBlocks_subBlocks_empty (data : RawMap) (index : Index)
    (h : CreateAllBlocks data = Except.ok index) :
    ∀ id b, (id, b) ∈ index → b.SubBlocks = [] := by
  unfold CreateAllBlocks at h
  cases hd : asList (mapGet data "docs") with
  | none => simp [hd] at h
  | some rawRems =>
    simp only [hd] at h
    obtain ⟨hnd, hderef, -⟩ := createLoop_ok rawRems [] index h
    intro id b hm
    have hl := lookup_of_mem_nodup index id b (hnd (by simp [Index.keys])) hm
    have hd1 := hderef id
    unfold Index.deref at hd1
    rw [hl] at hd1
    cases hr : lastRecord id rawRems with
    | none => simp [hr] at hd1
    | some rem =>
      simp only [hr, Option.some.injEq] at hd1
      subst hd1
      rfl

theorem mainRun_not_stuck (cfg : Config) (data : RawMap) : mainRun cfg data ≠ Outcome.stuck := by
  cases h1 : CreateAllBlocks data with
  | error e => simp [mainRun, h1]
  | ok blocks =>
    cases h2 : CreateBlockTree blocks with
    | error e => simp [mainRun, h1, h2]
    | ok r =>
      obtain ⟨roots, resolved⟩ := r
      cases h3 : parseAll (Index.keys resolved) resolved with
      | error e => simp [mainRun, h1, h2, h3]
      | panic => simp [mainRun, h1, h2, h3]
      | ok parsed =>
        obtain ⟨hwf, -, hroots⟩ := CreateBlockTree_childrenIndexed blocks resolved roots
          (CreateAllBlocks_subBlocks_empty data blocks h1) h2
        have hwf2 := parseAll_childrenIndexed _ _ _ hwf h3
        have hk := (parseAll_fields _ _ _ h3).1
        obtain ⟨log2, hl⟩ := writeRoots_total cfg parsed hwf2 roots
          (fun r hr => hk ▸ hroots r hr) []
        simp [mainRun, h1, h2, h3, hl]

theorem resolveHeadKey_references (b b1 : blockNode) (refs : List JSON)
    (h : resolveHeadKey b = Except.ok b1) (hd : b.Doc = false)
    (hr : asList (mapGet b.Content "references") = some refs) (hne : refs ≠ []) :
    (∀ s rest, asList (mapGet b.Content "key") = some (JSON.str s :: rest) →
      b1.HeadKey = "[[" ++ s ++ "]]") ∧
    (b1.HeadKey ≠ "" → ∃ s, b1.HeadKey = "[[" ++ s ++ "]]") := by
  have hlen : 0 < refs.length := List.length_pos.2 hne
  unfold resolveHeadKey at h
  split at h
  · cases h
  · rename_i hk
    cases h
    exact ⟨fun s rest hs => (by rw [hk] at hs; cases hs), fun hh => absurd rfl hh⟩
  · rename_i k0 rest0 hk
    split at h
    · rename_i headKey hs
      simp only [hr, hd, Option.isSome_some, Bool.not_false, Bool.and_self, if_true,
        Option.getD_some, hlen, gt_iff_lt] at h
      cases h
      have hk0 : k0 = JSON.str headKey := by
        cases k0 <;> simp [asString] at hs
        exact congrArg _ hs
      have he : stringsJoin ["[[", headKey, "]]"] "" = "[[" ++ headKey ++ "]]" := by
        simp [stringsJoin, String.append_assoc]
      refine ⟨fun s rest hs2 => ?_, fun _ => ⟨headKey, he⟩⟩
      rw [hk] at hs2
      simp only [Option.some.injEq, List.cons.injEq] at hs2
      rw [hk0] at hs2
      cases hs2.1
      exact he
    · rename_i hs
      cases h
      refine ⟨fun s rest hs2 => ?_, fun hh => absurd rfl hh⟩
      rw [hk] at hs2
      simp only [Option.some.injEq, List.cons.injEq] at hs2
      rw [hs2.1] at hs
      simp [asString] at hs

/-! ## Facts about the walk when the creation of a file can fail -/

theorem walkE_visited (cfg : Config) (fs : String → Bool) (index : Index) (fuel : Nat)
    (st : WalkState) (p : String) (level w : Nat) (hv : p ∈ st.visited) :
    walkE cfg fs index (fuel + 1) st (some p) level w = WalkEnd.ok st := by
  simp [walkE, hv]

theorem walkE_unindexed (cfg : Config) (fs : String → Bool) (index : Index) (fuel : Nat)
    (st : WalkState) (p : String) (level w : Nat) (hv : p ∉ st.visited)
    (hd : Index.deref index p = none) :
    walkE cfg fs index (fuel + 1) st (some p) level w = WalkEnd.stuck := by
  simp [walkE, hv, hd]

theorem walkE_create_fails (cfg : Config) (fs : String → Bool) (index : Index) (fuel : Nat)
    (st : WalkState) (p : String) (level w : Nat) (node : blockNode)
    (hv : p ∉ st.visited) (hd : Index.deref index p = some node)
    (ho : opensFile node = true)
    (hf : fs (cfg.OUTDIR ++ "/" ++ correctFileName node.HeadKey ++ ".md") = false) :
    walkE cfg fs index (fuel + 1) st (some p) level w =
      WalkEnd.failed (cfg.OUTDIR ++ "/" ++ correctFileName node.HeadKey ++ ".md")
        { visited := p :: st.visited,
          log := st.log ++ [Event.placeholder w p (WritePeOrRef cfg node level)] } := by
  have ho2 : (node.Doc && node.ParentBlock.isSome) = true := ho
  simp [walkE, hv, hd, ho2, hf]

theorem walkE_succ (cfg : Config) (fs : String → Bool) (index : Index) (fuel : Nat)
    (st : WalkState) (p : String) (level w : Nat) (node : blockNode)
    (hv : p ∉ st.visited) (hd : Index.deref index p = some node)
    (hf : opensFile node = true →
      fs (cfg.OUTDIR ++ "/" ++ correctFileName node.HeadKey ++ ".md") = true) :
    walkE cfg fs index (fuel + 1) st (some p) level w =
      walkChildrenE
        (fun s next => walkE cfg fs index fuel s (some next)
          ((if opensFile node then 0 else level) + 1)
          (if opensFile node then nextWriter st.log else w))
        node.SubBlocks
        { visited := p :: st.visited,
          log := st.log ++ ownEvents cfg node p level w (nextWriter st.log) } := by
  by_cases ho : opensFile node = true
  · have ho2 : (node.Doc && node.ParentBlock.isSome) = true := ho
    simp [walkE, hv, hd, ownEvents, ho, ho2, hf ho]
  · have ho2 : ¬ (node.Doc && node.ParentBlock.isSome) = true := ho
    simp only [Bool.not_eq_true] at ho ho2
    simp [walkE, hv, hd, ownEvents, ho, ho2]

theorem walkChildrenE_ok (stepE : WalkState → String → WalkEnd)
    (step : WalkState → String → Option WalkState) (l : List (Option String))
    (h : ∀ s c s2, stepE s c = WalkEnd.ok s2 → step s c = some s2)
    (st st2 : WalkState) (hw : walkChildrenE stepE l st = WalkEnd.ok st2) :
    walkChildren step l st = some st2 := by
  induction l generalizing st with
  | nil =>
    simp only [walkChildrenE, WalkEnd.ok.injEq] at hw
    subst hw; rfl
  | cons x rest ih =>
    cases x with
    | none =>
      simp only [walkChildrenE, walkChildren] at hw ⊢
      exact ih st hw
    | some c =>
      simp only [walkChildrenE, walkChildren] at hw ⊢
      cases hs : stepE st c with
      | ok s1 =>
        simp only [hs] at hw
        rw [h st c s1 hs]
        exact ih s1 hw
      | failed path s1 => simp [hs] at hw
      | stuck => simp [hs] at hw

theorem walkE_ok_walk (cfg : Config) (fs : String → Bool) (index : Index) (fuel : Nat) :
    ∀ (st st2 : WalkState) (node : Option String) (level w : Nat),
      walkE cfg fs index fuel st node level w = WalkEnd.ok st2 →
      walk cfg index fuel st node level w = some st2 := by
  induction fuel with
  | zero => intro st st2 node level w h; simp [walkE] at h
  | succ fuel ih =>
    intro st st2 node level w h
    cases node with
    | none => simpa [walkE, walk] using h
    | some p =>
      by_cases hv : p ∈ st.visited
      · rw [walkE_visited cfg fs index fuel st p level w hv] at h
        rw [walk_visited cfg index fuel st p level w hv]
        simpa using h
      · cases hd : Index.deref index p with
        | none => rw [walkE_unindexed cfg fs index fuel st p level w hv hd] at h; cases h
        | some nd =>
          by_cases hf : opensFile nd = true →
              fs (cfg.OUTDIR ++ "/" ++ correctFileName nd.HeadKey ++ ".md") = true
          · rw [walkE_succ cfg fs index fuel st p level w nd hv hd hf] at h
            rw [walk_succ cfg index fuel st p level w nd hv hd]
            exact walkChildrenE_ok _ _ _ (fun s c s2 hs => ih s s2 (some c) _ _ hs) _ _ h
          · simp only [Classical.not_imp, Bool.not_eq_true] at hf
            rw [walkE_create_fails cfg fs index fuel st p level w nd hv hd hf.1 hf.2] at h
            cases h

theorem walkChildrenE_not_stuck (index : Index) (stepE : WalkState → String → WalkEnd)
    (bound : Nat) (l : List (Option String))
    (hstep : ∀ s c, some c ∈ l → unvisited index s.visited ≤ bound →
      stepE s c ≠ WalkEnd.stuck ∧
      ∀ s2, stepE s c = WalkEnd.ok s2 → unvisited index s2.visited ≤ unvisited index s.visited)
    (st : WalkState) (hb : unvisited index st.visited ≤ bound) :
    walkChildrenE stepE l st ≠ WalkEnd.stuck := by
  induction l generalizing st with
  | nil => simp [walkChildrenE]
  | cons x rest ih =>
    cases x with
    | none =>
      simp only [walkChildrenE]
      exact ih (fun s c hm => hstep s c (List.mem_cons_of_mem _ hm)) st hb
    | some c0 =>
      obtain ⟨hns, hle⟩ := hstep st c0 (List.mem_cons_self _ _) hb
      simp only [walkChildrenE]
      cases hs : stepE st c0 with
      | ok s1 =>
        exact ih (fun s c hm => hstep s c (List.mem_cons_of_mem _ hm)) s1
          ((hle s1 hs).trans hb)
      | failed path s1 => simp
      | stuck => exact absurd hs hns

theorem walkE_not_stuck (cfg : Config) (fs : String → Bool) (index : Index)
    (hwf : ChildrenIndexed index) (fuel : Nat) :
    ∀ (st : WalkState) (p : String) (node : blockNode) (level w : Nat),
      Index.deref index p = some node → unvisited index st.visited < fuel →
      walkE cfg fs index fuel st (some p) level w ≠ WalkEnd.stuck := by
  induction fuel with
  | zero => intro st p node level w _ h; exact absurd h (Nat.not_lt_zero _)
  | succ fuel ih =>
    intro st p node level w hd hlt
    by_cases hv : p ∈ st.visited
    · rw [walkE_visited cfg fs index fuel st p level w hv]; simp
    · by_cases hf : opensFile node = true →
          fs (cfg.OUTDIR ++ "/" ++ correctFileName node.HeadKey ++ ".md") = true
      · rw [walkE_succ cfg fs index fuel st p level w node hv hd hf]
        have hlt2 : unvisited index (p :: st.visited) < fuel :=
          Nat.lt_of_lt_of_le (unvisited_lt index st.visited p node hd hv)
            (Nat.le_of_lt_succ hlt)
        refine walkChildrenE_not_stuck index _ (unvisited index (p :: st.visited))
          node.SubBlocks ?_ _ (Nat.le_refl _)
        intro s c hm hb
        obtain ⟨cn, hcn⟩ := hwf p node c hd hm
        refine ⟨ih s c cn _ _ hcn (Nat.lt_of_le_of_lt hb hlt2), fun s2 hs2 => ?_⟩
        exact unvisited_mono index _ _
          (walk_grows cfg index fuel s s2 c _ _
            (walkE_ok_walk cfg fs index fuel s s2 (some c) _ _ hs2)).1.visited_mono
      · simp only [Classical.not_imp, Bool.not_eq_true] at hf
        rw [walkE_create_fails cfg fs index fuel st p level w node hv hd hf.1 hf.2]
        simp

theorem writeRootsE_done (cfg : Config) (fs : String → Bool) (index : Index)
    (roots : List String) (log log2 : List Event)
    (h : writeRootsE cfg fs index roots log = RunEnd.done log2) :
    writeRoots cfg index roots log = some log2 := by
  induction roots generalizing log with
  | nil =>
    simp only [writeRootsE, RunEnd.done.injEq] at h
    subst h; rfl
  | cons r rest ih =>
    unfold writeRootsE at h
    unfold writeRoots
    cases hd : Index.deref index r with
    | none => simp [hd] at h
    | some n =>
      simp only [hd] at h ⊢
      by_cases hk : n.HeadKey = ""
      · simp only [hk, if_true] at h ⊢
        exact ih log h
      · simp only [hk, if_false] at h ⊢
        by_cases hc : fs (cfg.OUTDIR ++ "/" ++ correctFileName n.HeadKey ++ ".md") = true
        · simp only [hc, if_true] at h
          cases hw : walkNodesE cfg fs index (some r) (nextWriter log)
              (log ++ [Event.create (cfg.OUTDIR ++ "/" ++ correctFileName n.HeadKey ++ ".md")]) with
          | ok st =>
            simp only [hw] at h
            have := walkE_ok_walk cfg fs index _ _ st (some r) 0 _ hw
            simp only [walkNodes, this, Option.map_some']
            exact ih st.log h
          | failed p st => simp [hw] at h
          | stuck => simp [hw] at h
        · simp [hc] at h

theorem mainRunE_done (cfg : Config) (fs : String → Bool) (data : RawMap) (log : List Event)
    (h : mainRunE cfg fs data = RunEnd.done log) : mainRun cfg data = Outcome.done log := by
  unfold mainRunE at h
  unfold mainRun
  cases h1 : CreateAllBlocks data with
  | error e => simp [h1] at h
  | ok blocks =>
    simp only [h1] at h ⊢
    cases h2 : CreateBlockTree blocks with
    | error e => simp [h2] at h
    | ok r =>
      obtain ⟨roots, resolved⟩ := r
      simp only [h2] at h ⊢
      cases h3 : parseAll (Index.keys resolved) resolved with
      | error e => simp [h3] at h
      | panic => simp [h3] at h
      | ok parsed =>
        simp only [h3] at h ⊢
        rw [writeRootsE_done cfg fs parsed roots [] log h]

theorem writeRootsE_not_stuck (cfg : Config) (fs : String → Bool) (index : Index)
    (hwf : ChildrenIndexed index) (roots : List String)
    (hroots : ∀ r, r ∈ roots → r ∈ Index.keys index) (log : List Event) :
    writeRootsE cfg fs index roots log ≠ RunEnd.stuck := by
  induction roots generalizing log with
  | nil => simp [writeRootsE]
  | cons r rest ih =>
    have hr : r ∈ index.map Prod.fst := hroots r (List.mem_cons_self _ _)
    obtain ⟨n, hn⟩ := Option.isSome_iff_exists.1 ((lookup_isSome_iff r index).2 hr)
    have hn2 : Index.deref index r = some n := hn
    have ih2 := ih (fun r2 h2 => hroots r2 (List.mem_cons_of_mem _ h2))
    unfold writeRootsE
    simp only [hn2]
    split
    · exact ih2 log
    · split
      · have hns := walkE_not_stuck cfg fs index hwf (index.length + 1)
          { visited := [], log := log ++
            [Event.create (cfg.OUTDIR ++ "/" ++ correctFileName n.HeadKey ++ ".md")] }
          r n 0 (nextWriter log) hn2 (Nat.lt_succ_of_le (unvisited_le_length index []))
        cases hw : walkNodesE cfg fs index (some r) (nextWriter log)
            (log ++ [Event.create (cfg.OUTDIR ++ "/" ++ correctFileName n.HeadKey ++ ".md")]) with
        | ok st => exact ih2 st.log
        | failed p st => simp
        | stuck => exact absurd hw hns
      · simp

theorem mainRunE_not_stuck (cfg : Config) (fs : String → Bool) (data : RawMap) :
    mainRunE cfg fs data ≠ RunEnd.stuck := by
  cases h1 : CreateAllBlocks data with
  | error e => simp [mainRunE, h1]
  | ok blocks =>
    cases h2 : CreateBlockTree blocks with
    | error e => simp [mainRunE, h1, h2]
    | ok r =>
      obtain ⟨roots, resolved⟩ := r
      cases h3 : parseAll (Index.keys resolved) resolved with
      | error e => simp [mainRunE, h1, h2, h3]
      | panic => simp [mainRunE, h1, h2, h3]
      | ok parsed =>
        obtain ⟨hwf, -, hroots⟩ := CreateBlockTree_childrenIndexed blocks resolved roots
          (CreateAllBlocks_subBlocks_empty data blocks h1) h2
        have hwf2 := parseAll_childrenIndexed _ _ _ hwf h3
        have hk := (parseAll_fields _ _ _ h3).1
        simp only [mainRunE, h1, h2, h3]
        exact writeRootsE_not_stuck cfg fs parsed hwf2 roots (fun r hr => hk ▸ hroots r hr) []

/-! ## Termination of the walk -/

/-- C11: on every graph, cycles and shared children included, `walkNodes` from a
node of the index gives a result, the same for any larger bound on the depth
of the recursion, and no node has its content line written twice; and no run
of `main` ends without a result of the walk. -/
theorem walkNodes_terminates_once (cfg : Config) (index : Index) (root : String)
    (node : blockNode) (w : Nat) (log : List Event)
    (hwf : ChildrenIndexed index) (hroot : Index.deref index root = some node) :
    ∃ delta, walkNodes cfg index (some root) w log = some (log ++ delta) ∧
      (written delta).Nodup ∧
      (∀ extra, (walk cfg index (index.length + 1 + extra) { visited := [], log := log }
        (some root) 0 w).map WalkState.log = some (log ++ delta)) ∧
      ∀ data, mainRun cfg data ≠ Outcome.stuck := by
  obtain ⟨st2, h⟩ := walk_total cfg index hwf (index.length + 1) { visited := [], log := log }
    root node 0 w hroot (Nat.lt_succ_of_le (unvisited_le_length index []))
  obtain ⟨g, -⟩ := walk_grows cfg index _ _ _ _ _ _ h
  obtain ⟨d, hl, -, -, hnd, -⟩ := g.delta
  refine ⟨d, ?_, hnd, fun extra => ?_, mainRun_not_stuck cfg⟩
  · simp [walkNodes, h, hl]
  · rw [walk_fuel_mono cfg index _ extra _ _ _ _ _ h]
    simp [hl]

/-- Witness of C11, at a graph with cycles and a shared child. -/
theorem walkNodes_terminates_once_witness :
    ∃ delta, walkNodes pagesConfig cyclicIndex (some "r") 0 [Event.create "pages/R.md"] =
        some ([Event.create "pages/R.md"] ++ delta) ∧
      (written delta).Nodup ∧
      (∀ extra, (walk pagesConfig cyclicIndex (cyclicIndex.length + 1 + extra)
        { visited := [], log := [Event.create "pages/R.md"] } (some "r") 0 0).map
          WalkState.log = some ([Event.create "pages/R.md"] ++ delta)) ∧
      ∀ data, mainRun pagesConfig data ≠ Outcome.stuck :=
  walkNodes_terminates_once pagesConfig cyclicIndex "r"
    (resolvedBlock "r" none [some "a", none, some "b"] false "R") 0
    [Event.create "pages/R.md"] (childrenIndexed_of_check cyclicIndex (by decide)) rfl

/-! ## Documents -/

/-- C13: when `parseContent` succeeds the render text is the text of the key,
a space, and the text of the value, where the text of a sequence is the
concatenation of the renderings of its cells, a plain text rendering as
itself, and is empty for an empty or absent sequence. -/
theorem parseContent_joins_key_and_value (b : blockNode) (index : Index) (b2 : blockNode)
    (h : parseContent b index = Res.ok b2) :
    ∃ K V, parse b index "key" = Res.ok K ∧ parse b index "value" = Res.ok V ∧
      b2.StringedContent = K ++ " " ++ V ∧
      (∀ key s, parse b index key = Res.ok s →
        (asList (mapGet b.Content key) = none → s = "") ∧
        (asList (mapGet b.Content key) = some [] → s = "") ∧
        (∀ cells, asList (mapGet b.Content key) = some cells →
          ∃ rs, List.Forall₂ (fun cell r => parseCell b index key cell = Res.ok r) cells rs ∧
            s = rs.foldr (fun r acc => r ++ acc) "")) ∧
      (∀ key t, parseCell b index key (JSON.str t) = Res.ok t) := by
  unfold parseContent at h
  cases hk : parse b index "key" with
  | error e => simp [hk] at h
  | panic => simp [hk] at h
  | ok K =>
    cases hv : parse b index "value" with
    | error e => simp [hk, hv] at h
    | panic => simp [hk, hv] at h
    | ok V =>
      simp only [hk, hv, Res.ok.injEq] at h
      subst h
      refine ⟨K, V, rfl, rfl, by simp [stringsJoin], ?_, fun _ _ => rfl⟩
      intro key s hs
      obtain ⟨h1, h2⟩ := parse_ok b index key s hs
      refine ⟨h1, fun he => ?_, h2⟩
      obtain ⟨rs, hf, hrs⟩ := h2 [] he
      cases hf
      exact hrs

/-- Witness of C13, at a block with a text and a reference as key. -/
theorem parseContent_joins_key_and_value_witness :
    ∃ K V, parse twoCellBlock [("t1", targetBlock)] "key" = Res.ok K ∧
      parse twoCellBlock [("t1", targetBlock)] "value" = Res.ok V ∧
      ({ twoCellBlock with StringedContent := "see Target v" } : blockNode).StringedContent =
        K ++ " " ++ V ∧
      (∀ key s, parse twoCellBlock [("t1", targetBlock)] key = Res.ok s →
        (asList (mapGet twoCellBlock.Content key) = none → s = "") ∧
        (asList (mapGet twoCellBlock.Content key) = some [] → s = "") ∧
        (∀ cells, asList (mapGet twoCellBlock.Content key) = some cells →
          ∃ rs, List.Forall₂
              (fun cell r => parseCell twoCellBlock [("t1", targetBlock)] key cell = Res.ok r)
              cells rs ∧
            s = rs.foldr (fun r acc => r ++ acc) "")) ∧
      (∀ key t, parseCell twoCellBlock [("t1", targetBlock)] key (JSON.str t) = Res.ok t) :=
  parseContent_joins_key_and_value twoCellBlock [("t1", targetBlock)]
    { twoCellBlock with StringedContent := "see Target v" } rfl

/-- C14, at the failing input: with a cell without kind tag before it, a cell
of unknown kind makes `parseContent` panic instead of returning an error.  What
holds: such a cell never lets `parseContent` succeed, an error is returned
when every object cell has a string kind tag, and the four cell parsers never
succeed with an empty text. -/
theorem parseContent_unknown_kind :
    (mapGet untaggedThenUnknownBlock.Content "key" =
        some (JSON.arr [JSON.obj untaggedCell, JSON.obj [("i", JSON.str "zz")]]) ∧
      parseContent untaggedThenUnknownBlock [] = Res.panic) ∧
    (∀ (b : blockNode) (index : Index) (key : String) (cells : List JSON) (cell : RawMap)
        (kind : String),
      (key = "key" ∨ key = "value") → asList (mapGet b.Content key) = some cells →
      JSON.obj cell ∈ cells → asString (mapGet cell "i") = some kind →
      kind ≠ "q" → kind ≠ "i" → kind ≠ "o" → kind ≠ "m" →
      (∀ b2, parseContent b index ≠ Res.ok b2) ∧
      ((∀ k cs, asList (mapGet b.Content k) = some cs → ∀ c ∈ cs, kindTagged c = true) →
        ∃ e, parseContent b index = Res.error e)) ∧
    (∀ (b : blockNode) (cell : RawMap) (index : Index) (s : String),
      (parseReference b cell index = Except.ok s → s ≠ "") ∧
      (parseImage b cell = Except.ok s → s ≠ "") ∧
      (parseCodeBlock b cell = Except.ok s → s ≠ "") ∧
      (parseMarkUp b cell index = Except.ok s → s ≠ "")) := by
  refine ⟨⟨rfl, rfl⟩, ?_, ?_⟩
  · intro b index key cells cell kind hkey hs hc hk hq hi ho hm
    have hnot : ∀ b2, parseContent b index ≠ Res.ok b2 :=
      parseContent_not_ok_of_parse b index key hkey
        (parse_not_ok_of_mem b index key cells (JSON.obj cell) hs hc
          (fun r => by rw [parseCell_unknown_kind b index key cell kind hk hq hi ho hm]; simp))
    refine ⟨hnot, fun htag => ?_⟩
    cases hp : parseContent b index with
    | ok b2 => exact absurd hp (hnot b2)
    | error e => exact ⟨e, rfl⟩
    | panic => exact absurd hp (parseContent_no_panic b index htag)
  · intro b cell index s
    exact ⟨parseReference_nonempty b cell index s, parseImage_nonempty b cell s,
      parseCodeBlock_nonempty b cell s, parseMarkUp_nonempty b cell index s⟩

/-! ## Reference heads -/

/-- C15: after `CreateBlockTree`, a block that is not a document and has a
non-empty references list has the head label `[[s]]` when its first key cell
is the text `s`, and any non-empty head label of such a block is of the form
`[[s]]`. -/
theorem CreateBlockTree_reference_heads (blocks out : Index) (roots : List String)
    (hnd : (Index.keys blocks).Nodup)
    (h : CreateBlockTree blocks = Except.ok (roots, out)) :
    ∀ id b refs, (id, b) ∈ blocks → b.Doc = false →
      asList (mapGet b.Content "references") = some refs → refs ≠ [] →
      ∃ b2, Index.deref out id = some b2 ∧ b2.Doc = false ∧ b2.Content = b.Content ∧
        (∀ s rest, asList (mapGet b.Content "key") = some (JSON.str s :: rest) →
          b2.HeadKey = "[[" ++ s ++ "]]") ∧
        (b2.HeadKey ≠ "" → ∃ s, b2.HeadKey = "[[" ++ s ++ "]]") := by
  intro id b refs hm hd hr hne
  unfold CreateBlockTree at h
  cases hh : headKeyLoop blocks with
  | error e => simp [hh] at h
  | ok bs1 =>
    simp only [hh] at h
    obtain ⟨hk1, hf1, -⟩ := headKeyLoop_ok _ _ hh
    obtain ⟨hk2, -, hf2, -⟩ := treeLoop_ok _ _ _ _ h
    have hnd1 : (Index.keys bs1).Nodup := hk1 ▸ hnd
    obtain ⟨b1, hm1, hr1⟩ := hf1 id b hm
    obtain ⟨n1, b2, top, hm2, hs, hpar, -⟩ := hf2 id b1 hm1
    have c1 := resolveHeadKey_content _ _ hr1
    have c2 := resolveSubBlocks_content _ _ _ hs
    have c3 := resolveParent_ok _ _ _ _ hpar
    have hhead : b2.HeadKey = b1.HeadKey := c3.2.2.2.2.2.2.1.trans c2.2.2.2.1
    have hdoc : b2.Doc = b.Doc := c3.2.2.2.2.2.1.trans (c2.2.2.1.trans c1.2.2.1)
    have hcont : b2.Content = b.Content := c3.2.2.2.1.trans (c2.1.trans c1.1)
    obtain ⟨g1, g2⟩ := resolveHeadKey_references b b1 refs hr1 hd hr hne
    refine ⟨b2, lookup_of_mem_nodup out id b2 (show (Index.keys out).Nodup from hk2 ▸ hnd1) hm2,
      hdoc.trans hd, hcont, ?_, ?_⟩
    · intro s rest hs2
      rw [hhead]; exact g1 s rest hs2
    · intro hh2
      rw [hhead] at hh2 ⊢
      exact g2 hh2

/-- Witness of C15, at a note with one inbound reference. -/
theorem CreateBlockTree_reference_heads_witness :
    ∃ b2, Index.deref referencedIndexResolved "n" = some b2 ∧ b2.Doc = false ∧
      b2.Content = (newBlock "n" referencedRecord).Content ∧
      (∀ s rest, asList (mapGet (newBlock "n" referencedRecord).Content "key") =
          some (JSON.str s :: rest) → b2.HeadKey = "[[" ++ s ++ "]]") ∧
      (b2.HeadKey ≠ "" → ∃ s, b2.HeadKey = "[[" ++ s ++ "]]") :=
  CreateBlockTree_reference_heads referencedIndex referencedIndexResolved ["n"]
    (by decide) rfl "n" (newBlock "n" referencedRecord) [JSON.str "q1"]
    (by simp [referencedIndex]) rfl rfl (by simp)

/-! ## Content lines -/

/-- C16: `WriteContent` writes `d` tabs, `- `, the render text with `d` tabs
put after each of its line breaks, and a line break; the text written
consists of one line more than the render text has line breaks, each line
starting with `d` tabs. -/
theorem WriteContent_lines (node : blockNode) (d : Nat) :
    WriteContent node d =
      String.mk (List.replicate d '\t') ++ "- " ++
        String.mk (indentBreaks d node.StringedContent.data) ++ "\n" ∧
    indentBreaks d [] = [] ∧
    (∀ r rest, indentBreaks d (r :: rest) =
      if r = '\n' then r :: (List.replicate d '\t' ++ indentBreaks d rest)
      else r :: indentBreaks d rest) ∧
    ∃ ls : List (List Char),
      ls.length = node.StringedContent.data.count '\n' + 1 ∧
      (∀ l ∈ ls, '\n' ∉ l ∧ List.replicate d '\t' <+: l) ∧
      (WriteContent node d).data = (ls.map (fun l => l ++ ['\n'])).flatten := by
  refine ⟨WriteContent_eq node d, rfl, fun _ _ => rfl, ?_⟩
  obtain ⟨ls, hlen, hall, heq⟩ :=
    indentBreaks_lines d node.StringedContent.data ['-', ' '] (by decide)
  refine ⟨ls, hlen, hall, ?_⟩
  rw [← heq, WriteContent_eq]
  simp

/-! ## What the walk writes -/

/-- C19, at the failing input: a key cell that is an object without the field
`i` makes `parseContent` panic. -/
theorem parseContent_untagged_cell_panics :
    mapGet untaggedBlock.Content "key" = some (JSON.arr [JSON.obj untaggedCell]) ∧
    mapGet untaggedCell "i" = none ∧
    parseContent untaggedBlock [] = Res.panic := by
  refine ⟨rfl, rfl, rfl⟩

/-! ## Scope of a new file -/

end RemSequalizer
